import Mathlib

/-!
# A verification development for the prompt / retrieval / chain core

Shallow embedding of `internal/chain/chain.go`, `internal/rag/rag.go` and
`internal/prompt/prompt.go`.

Conventions of the embedding:

* a Go `string` is a Lean `String` (valid UTF-8 text);
* a Go `error` is an `Option GoError`, `none` being the nil error;
* a Go `interface{}` is a `Value`;
* a Go `map[string]V` is an association list `List (String × V)` with pairwise
  distinct keys; a `range` over a map visits the entries in an order chosen by a
  `RangeOrder`, which may be any permutation;
* a pointer to a struct is the struct value: a caller that keeps the pointer and
  changes the struct after handing it over is outside the model;
* locks are not modelled: every operation is taken as one atomic step.
-/

set_option autoImplicit false

namespace GoLLM

/-! ## Errors and dynamic values -/

/-- Go error values: `new` is an error built from a message alone
(`errors.New`, `fmt.Errorf` without `%w`), `wrap` is the error built by
`fmt.Errorf` with one `%w` verb: it stores the formatted message and the
wrapped error. -/
inductive GoError where
  | new (msg : String)
  | wrap (msg : String) (inner : GoError)
  deriving DecidableEq, Repr

/-- The method `Error()` of an error: its message. -/
def GoError.Error : GoError → String
  | .new msg => msg
  | .wrap msg _ => msg

/-- The method `Unwrap()` as seen by `errors.Unwrap`: the wrapped error, if any. -/
def GoError.Unwrap : GoError → Option GoError
  | .new _ => none
  | .wrap _ inner => some inner

/-- The call `fmt.Errorf(lead + "%w", err)`: the message is the text before the verb
followed by the message of `err`, and the result wraps `err`. -/
def ErrorfW (lead : String) (err : GoError) : GoError :=
  .wrap (lead ++ err.Error) err

/-- Values of the empty interface `interface{}`: the nil interface, a string, an
integer, or any other dynamic value, which is represented by the text that the
verb `%v` prints for it. -/
inductive Value where
  | nil
  | str (s : String)
  | int (n : Int)
  | other (shown : String)
  deriving DecidableEq, Repr

/-! ## chain.go -/

section ChainDefs

variable {Ctx : Type}

/-- The type `Step`: `func(ctx context.Context, input interface{}) (interface{}, error)`. -/
abbrev Step (Ctx : Type) := Ctx → Value → Value × Option GoError

/-- The struct `Chain` (its lock left out). -/
structure Chain (Ctx : Type) where
  steps : List (Step Ctx)

/-- `NewChain`: a chain with an empty step list. -/
def NewChain : Chain Ctx := ⟨[]⟩

/-- `AddStep`: appends the step. -/
def Chain.AddStep (c : Chain Ctx) (step : Step Ctx) : Chain Ctx :=
  ⟨c.steps ++ [step]⟩

/-- The loop `for i, step := range c.steps` of `Run`, entered at index `i` with the
remaining steps and the current `result`. -/
def Chain.runLoop (ctx : Ctx) : Nat → List (Step Ctx) → Value → Value × Option GoError
  | _, [], result => (result, none)
  | i, step :: rest, result =>
    match step ctx result with
    | (r, none) => Chain.runLoop ctx (i + 1) rest r
    | (_, some err) =>
      (Value.nil, some (ErrorfW ("step " ++ toString i ++ " failed: ") err))

/-- `Run`: threads `input` through the steps. -/
def Chain.Run (c : Chain Ctx) (ctx : Ctx) (input : Value) : Value × Option GoError :=
  Chain.runLoop ctx 0 c.steps input

/-- The text that the verb `%v` prints for a value. -/
def Value.format : Value → String
  | .nil => "<nil>"
  | .str s => s
  | .int n => toString n
  | .other shown => shown

/-- `RunString`: runs the chain on a string; a result that is not a string is
converted by `%v`. -/
def Chain.RunString (c : Chain Ctx) (ctx : Ctx) (input : String) : String × Option GoError :=
  match c.Run ctx (.str input) with
  | (_, some err) => ("", some err)
  | (.str s, none) => (s, none)
  | (v, none) => (v.format, none)

/-- `GetStepCount`. -/
def Chain.GetStepCount (c : Chain Ctx) : Int := c.steps.length

/-- `Clear`. -/
def Chain.Clear (_c : Chain Ctx) : Chain Ctx := ⟨[]⟩

/-- Every step of the list succeeds (returns a nil error) when the steps are applied
in order, each to the value returned by the one before it, starting from `v`. -/
def AllSucceed (ctx : Ctx) : List (Step Ctx) → Value → Prop
  | [], _ => True
  | s :: rest, v => (s ctx v).2 = none ∧ AllSucceed ctx rest (s ctx v).1

/-- The left-to-right fold of the steps over a value: `s_n(...s_2(s_1(v))...)`. -/
def threadSteps (ctx : Ctx) (steps : List (Step Ctx)) (v : Value) : Value :=
  steps.foldl (fun acc s => (s ctx acc).1) v

end ChainDefs

/-- The first step of `exampleChain` in `examples/basic_usage.go`. -/
def exampleStep1 : Step Unit := fun _ input =>
  match input with
  | .str s => (.str ("预处理: " ++ s), none)
  | v => (v, none)

/-- The second step of `exampleChain`. -/
def exampleStep2 : Step Unit := fun _ input =>
  match input with
  | .str s => (.str (s ++ " [已增强]"), none)
  | v => (v, none)

/-- The third step of `exampleChain`. -/
def exampleStep3 : Step Unit := fun _ input =>
  match input with
  | .str s => (.str ("最终结果: " ++ s), none)
  | v => (v, none)

/-- The chain assembled by `exampleChain`. -/
def exampleChain : Chain Unit :=
  ((NewChain.AddStep exampleStep1).AddStep exampleStep2).AddStep exampleStep3

/-- A step that always fails with the error `boom`. -/
def failingStep : Step Unit := fun _ v => (v, some (.new "boom"))

/-! ## Library functions used by rag.go and prompt.go -/

/-- The predicate `unicode.IsSpace`, which `strings.Fields` splits on: the ASCII
blanks, U+0085, U+00A0 and the code points of category Z or property Pattern_White_Space. -/
def isSpace (c : Char) : Bool :=
  c.toNat ∈ [0x09, 0x0A, 0x0B, 0x0C, 0x0D, 0x20, 0x85, 0xA0, 0x1680, 0x2028, 0x2029,
    0x202F, 0x205F, 0x3000] || (0x2000 ≤ c.toNat && c.toNat ≤ 0x200A)

/-- The scan of `strings.Fields`: `cur` holds, reversed, the characters of the field
being read. -/
def fieldsLoop : List Char → List Char → List String
  | [], cur => if cur = [] then [] else [String.mk cur.reverse]
  | c :: cs, cur =>
    if isSpace c then
      if cur = [] then fieldsLoop cs [] else String.mk cur.reverse :: fieldsLoop cs []
    else fieldsLoop cs (c :: cur)

/-- `strings.Fields`: the maximal runs of non-space characters, in order. -/
def Fields (s : String) : List String := fieldsLoop s.data []

/-- Whether `pat` stands at the head of the text. -/
def startsWith : List Char → List Char → Bool
  | [], _ => true
  | _ :: _, [] => false
  | p :: ps, c :: cs => p = c && startsWith ps cs

/-- Whether `pat` stands somewhere in the text. -/
def occursIn (pat : List Char) : List Char → Bool
  | [] => startsWith pat []
  | c :: cs => startsWith pat (c :: cs) || occursIn pat cs

/-- `strings.Contains(s, substr)`. On valid UTF-8 text a match of the bytes of `substr`
starts and ends on character boundaries, so the test is made on characters. -/
def Contains (s substr : String) : Bool := occursIn substr.data s.data

/-- The lower-casing of strings restricted to ASCII letters. On text whose cased
letters are all ASCII this is `strings.ToLower`; the definitions below take the
lower-casing function as an argument, since the full one needs the Unicode tables. -/
def asciiToLower (s : String) : String := String.mk (s.data.map Char.toLower)

/-- The order in which a `range` statement visits the entries of a map: the language
leaves it open, so it is an argument of every function that ranges over a map. -/
structure RangeOrder where
  order : {α : Type} → List α → List α
  perm : ∀ {α : Type} (l : List α), (order l).Perm l

/-- Visiting the entries in the order of the association list. -/
def RangeOrder.asStored : RangeOrder := ⟨fun l => l, fun l => List.Perm.refl l⟩

/-- Visiting the entries in the reverse order of the association list. -/
def RangeOrder.reversed : RangeOrder := ⟨fun l => l.reverse, fun l => List.reverse_perm l⟩

/-- The map read `m[key]` together with its presence flag. -/
def mapGet {V : Type} : List (String × V) → String → Option V
  | [], _ => none
  | (k, v) :: rest, key => if k = key then some v else mapGet rest key

/-- The map write `m[key] = val`: replaces the entry of `key` or adds one. -/
def mapSet {V : Type} : List (String × V) → String → V → List (String × V)
  | [], key, val => [(key, val)]
  | (k, v) :: rest, key, val =>
    if k = key then (key, val) :: rest else (k, v) :: mapSet rest key val

/-- The call `delete(m, key)`. -/
def mapDelete {V : Type} : List (String × V) → String → List (String × V)
  | [], _ => []
  | (k, v) :: rest, key => if k = key then rest else (k, v) :: mapDelete rest key

/-- The keys of a map. -/
def mapKeys {V : Type} (m : List (String × V)) : List String := m.map Prod.fst

/-! ## rag.go -/

/-- The struct `Document`. The `float64` score is a rational number: the scores that
`Retrieve` computes are counts, which `float64` holds exactly. -/
structure Document where
  ID : String
  Content : String
  Metadata : List (String × String)
  Score : ℚ
  deriving DecidableEq

/-- The struct `SimpleRetriever`: the map from id to stored document. -/
structure SimpleRetriever where
  documents : List (String × Document)

/-- `NewSimpleRetriever`. -/
def NewSimpleRetriever : SimpleRetriever := ⟨[]⟩

/-- The store invariant kept by `AddDocument`: the keys are pairwise distinct and
every document is stored under its own id. -/
def SimpleRetriever.WellFormed (r : SimpleRetriever) : Prop :=
  (mapKeys r.documents).Nodup ∧ ∀ p ∈ r.documents, p.2.ID = p.1

/-- The inner loop of `Retrieve` over `queryWords`: adds one to `score` for each word
that the content contains. -/
def SimpleRetriever.scoreLoop (content : String) : List String → ℚ → ℚ
  | [], score => score
  | word :: rest, score =>
    SimpleRetriever.scoreLoop content rest (if Contains content word then score + 1 else score)

/-- The first loop of `Retrieve`, over the entries of `r.documents`: fills `scores`
with the positive scores. -/
def SimpleRetriever.scoresLoop (lower : String → String) (queryWords : List String) :
    List (String × Document) → List (String × ℚ) → List (String × ℚ)
  | [], scores => scores
  | (id, doc) :: rest, scores =>
    let content := lower doc.Content
    let score := SimpleRetriever.scoreLoop content queryWords 0
    SimpleRetriever.scoresLoop lower queryWords rest
      (if score > 0 then mapSet scores id score else scores)

/-- The second loop of `Retrieve`, over the entries of `scores`: copies the stored
document, sets the score of the copy, appends it and stops at `limit` results. The
read `r.documents[id]` always finds an entry, the keys of `scores` being keys of
`r.documents`; the branch for a missing entry is never taken. -/
def SimpleRetriever.resultsLoop (r : SimpleRetriever) (limit : Int) :
    List (String × ℚ) → List Document → List Document
  | [], results => results
  | (id, score) :: rest, results =>
    match mapGet r.documents id with
    | none => SimpleRetriever.resultsLoop r limit rest results
    | some stored =>
      let doc := { stored with Score := score }
      let results := results ++ [doc]
      if (results.length : Int) ≥ limit then results
      else SimpleRetriever.resultsLoop r limit rest results

/-- `Retrieve`, with the lower-casing function and the visiting order of the two map
ranges as arguments. -/
def SimpleRetriever.Retrieve (lower : String → String) (ord : RangeOrder)
    (r : SimpleRetriever) (query : String) (limit : Int) :
    List Document × Option GoError :=
  let limit := if limit ≤ 0 then 5 else limit
  let query := lower query
  let queryWords := Fields query
  let scores := SimpleRetriever.scoresLoop lower queryWords (ord.order r.documents) []
  (SimpleRetriever.resultsLoop r limit (ord.order scores) [], none)

/-- `AddDocument`; the argument `none` is the nil pointer. -/
def SimpleRetriever.AddDocument (r : SimpleRetriever) (doc : Option Document) :
    SimpleRetriever × Option GoError :=
  match doc with
  | none => (r, some (.new "document cannot be nil"))
  | some d =>
    if d.ID = "" then (r, some (.new "document ID cannot be empty"))
    else (⟨mapSet r.documents d.ID d⟩, none)

/-- `RemoveDocument`. -/
def SimpleRetriever.RemoveDocument (r : SimpleRetriever) (id : String) :
    SimpleRetriever × Option GoError :=
  match mapGet r.documents id with
  | none => (r, some (.new ("document \x27" ++ id ++ "\x27 not found")))
  | some _ => (⟨mapDelete r.documents id⟩, none)

/-- The interface `Retriever`, seen from `RAGEngine`: its method `Retrieve`. -/
structure Retriever (Ctx : Type) where
  Retrieve : Ctx → String → Int → List Document × Option GoError

/-- A `SimpleRetriever` as a `Retriever`. -/
def SimpleRetriever.toRetriever {Ctx : Type} (lower : String → String) (ord : RangeOrder)
    (r : SimpleRetriever) : Retriever Ctx :=
  ⟨fun _ query limit => r.Retrieve lower ord query limit⟩

/-- The struct `RAGEngine`. -/
structure RAGEngine (Ctx : Type) where
  retriever : Retriever Ctx

/-- `NewRAGEngine`. -/
def NewRAGEngine {Ctx : Type} (retriever : Retriever Ctx) : RAGEngine Ctx := ⟨retriever⟩

/-- The loop of `buildContext`, entered at index `i` with the text written so far.
The argument `fmt2` is the rendering of a score by the verb `%.2f`. -/
def RAGEngine.buildContextLoop (fmt2 : ℚ → String) : Nat → List Document → String → String
  | _, [], context => context
  | i, doc :: rest, context =>
    RAGEngine.buildContextLoop fmt2 (i + 1) rest
      (((context ++ ("文档 " ++ toString (i + 1) ++ " (相关度: " ++ fmt2 doc.Score ++ "):\n"))
        ++ doc.Content) ++ "\n\n")

/-- `buildContext`. -/
def RAGEngine.buildContext (fmt2 : ℚ → String) (docs : List Document) : String :=
  RAGEngine.buildContextLoop fmt2 0 docs ""

/-- `Query`. -/
def RAGEngine.Query {Ctx : Type} (fmt2 : ℚ → String) (e : RAGEngine Ctx) (ctx : Ctx)
    (query : String) (limit : Int) : String × Option GoError :=
  match e.retriever.Retrieve ctx query limit with
  | (_, some err) => ("", some (ErrorfW "retrieval failed: " err))
  | (docs, none) =>
    if docs.length = 0 then ("抱歉，没有找到相关的文档信息。", none)
    else
      let context := RAGEngine.buildContext fmt2 docs
      ("基于以下上下文信息回答问题：\n\n上下文：\n" ++ context ++ "\n\n问题：" ++ query, none)

/-- The rendering by `%.2f` of a score that is a whole number, as the scores of
`SimpleRetriever.Retrieve` are; other scores are outside this simple rendering. -/
def fmt2Whole (q : ℚ) : String := toString q.floor ++ ".00"

/-- The number of tokens of the lower-cased query, each counted as often as it stands
in the query, that occur in the lower-cased content. -/
def tokenHits (lower : String → String) (content query : String) : ℕ :=
  (Fields (lower query)).countP (fun w => Contains (lower content) w)

/-- The number of distinct tokens of the lower-cased query that occur in the
lower-cased content. -/
def distinctTokenHits (lower : String → String) (content query : String) : ℕ :=
  (Fields (lower query)).dedup.countP (fun w => Contains (lower content) w)

/-- The limit that `Retrieve` works with: `limit` when positive, 5 otherwise. -/
def effectiveLimit (limit : Int) : Int := if limit > 0 then limit else 5

/-- The stored documents with a positive score for the query: those in whose
lower-cased content some token of the lower-cased query occurs. -/
def matchingDocuments (lower : String → String) (r : SimpleRetriever) (query : String) :
    List (String × Document) :=
  r.documents.filter (fun p => 0 < tokenHits lower p.2.Content query)

/-- The copy that the second loop of `Retrieve` appends for an entry of `scores`. -/
def stampedCopy (r : SimpleRetriever) (e : String × ℚ) : Option Document :=
  (mapGet r.documents e.1).map (fun stored => { stored with Score := e.2 })

/-- The entries that the first loop of `Retrieve` leaves in `scores` when it visits
the stored documents in the order of the association list. -/
def scoreEntries (lower : String → String) (r : SimpleRetriever) (query : String) :
    List (String × ℚ) :=
  (r.documents.filter (fun p => 0 < tokenHits lower p.2.Content query)).map
    (fun p => (p.1, (tokenHits lower p.2.Content query : ℚ)))

/-- A store of one document about Go. -/
def storeGo : SimpleRetriever := ⟨[("d1", ⟨"d1", "go", [], 0⟩)]⟩

/-- A store of two documents, the first of which mentions concurrency. -/
def storeTwo : SimpleRetriever :=
  ⟨[("doc1", ⟨"doc1", "Go concurrency patterns", [], 0⟩),
    ("doc2", ⟨"doc2", "Rust ownership", [], 0⟩)]⟩

/-- The number of hundredths nearest to the absolute value of `q`, a value halfway
between two candidates going to the even one: with `q = num / den`, the quotient of
`|num| * 100` by `den`, rounded. -/
def nearestHundredths (q : ℚ) : ℕ :=
  let a := q.num.natAbs * 100
  let f := a / q.den
  let rest := a % q.den
  if 2 * rest < q.den then f
  else if q.den < 2 * rest then f + 1
  else if f % 2 = 0 then f else f + 1

/-- The rendering of a score by the verb `%.2f`: the sign of a negative value, the
integer part, the point, and exactly two decimal digits, the value being rounded to
the nearest hundredth. -/
def formatF2 (q : ℚ) : String :=
  let n := nearestHundredths q
  (if q.num < 0 then "-" else "") ++ toString (n / 100) ++ "."
    ++ String.mk [Nat.digitChar (n % 100 / 10), Nat.digitChar (n % 10)]

/-- The fallback answer of `Query` when nothing was retrieved. -/
def noDocumentsAnswer : String := "抱歉，没有找到相关的文档信息。"

/-- The fixed instruction text that opens an answer of `Query`. -/
def instructionPreamble : String := "基于以下上下文信息回答问题：\n\n上下文：\n"

/-- The block of the `k`-th retrieved document: index, score with two decimals,
content, blank line. -/
def contextBlock (fmt2 : ℚ → String) (k : ℕ) (d : Document) : String :=
  "文档 " ++ toString k ++ " (相关度: " ++ fmt2 d.Score ++ "):\n" ++ d.Content ++ "\n\n"

/-- The blocks of the documents `d_k, d_(k+1), ...` in retrieval order. -/
def contextBlocksFrom (fmt2 : ℚ → String) : ℕ → List Document → String
  | _, [] => ""
  | k, d :: ds => contextBlock fmt2 k d ++ contextBlocksFrom fmt2 (k + 1) ds

/-- The answer that the description of `Query` gives for a non-empty retrieved list:
preamble, the blocks numbered from 1, then the question line with the query. -/
def expectedAnswer (fmt2 : ℚ → String) (query : String) (docs : List Document) : String :=
  instructionPreamble ++ contextBlocksFrom fmt2 1 docs ++ "\n\n问题：" ++ query

/-- A retriever that returns the same two documents for every query. -/
def fixedRetriever : Retriever Unit :=
  ⟨fun _ _ _ => ([⟨"a", "alpha", [], 2⟩, ⟨"b", "beta", [], 1 / 2⟩], none)⟩

/-! ## prompt.go -/

/-- The struct `Template`. -/
structure Template where
  Name : String
  Content : String
  Version : String
  Variables : List String
  Metadata : List (String × String)
  deriving DecidableEq

/-- The struct `PromptEngine`: the map from name to template. -/
structure PromptEngine where
  templates : List (String × Template)
  deriving DecidableEq

/-- `NewPromptEngine`. -/
def NewPromptEngine : PromptEngine := ⟨[]⟩

/-- The class `\w` of the regexp: ASCII letters, digits and the underscore. -/
def isWordChar (c : Char) : Bool := c.isAlphanum || c = '_'

/-- A match of the regexp `\{\{\.(\w+)\}\}` at the head of the text: the text of the
group `(\w+)`, which is the longest run of word characters after the opening, the
closing braces having to follow it. -/
def matchPlaceholder (s : List Char) : Option (List Char) :=
  if startsWith "\x7b\x7b.".data s then
    let body := s.drop 3
    let w := body.takeWhile isWordChar
    if w ≠ [] ∧ startsWith "\x7d\x7d".data (body.dropWhile isWordChar) then some w else none
  else none

/-- The scan of `FindAllStringSubmatch`: the leftmost match is taken, the scan resumes
behind it. `skip` counts the characters of the last match that are still to be passed.
Each match is the pair of the whole match and the group. -/
def findAllLoop : ℕ → List Char → List (List String)
  | _, [] => []
  | skip + 1, _ :: cs => findAllLoop skip cs
  | 0, c :: cs =>
    match matchPlaceholder (c :: cs) with
    | some w =>
      [String.mk ("\x7b\x7b.".data ++ w ++ "\x7d\x7d".data), String.mk w]
        :: findAllLoop (w.length + 4) cs
    | none => findAllLoop 0 cs

/-- `re.FindAllStringSubmatch(content, -1)` for the regexp of `extractVariables`. -/
def FindAllStringSubmatch (content : String) : List (List String) :=
  findAllLoop 0 content.data

/-- The loop of `extractVariables` over the matches, with the slice `variables`
(here `vars`) and the map `seen`. -/
def extractLoop : List (List String) → List String → List (String × Bool) → List String
  | [], vars, _ => vars
  | m :: rest, vars, seen =>
    if m.length > 1 then
      let varName := m.getD 1 ""
      if !((mapGet seen varName).getD false) then
        extractLoop rest (vars ++ [varName]) (mapSet seen varName true)
      else extractLoop rest vars seen
    else extractLoop rest vars seen

/-- `extractVariables`. -/
def extractVariables (content : String) : List String :=
  extractLoop (FindAllStringSubmatch content) [] []

/-- `AddTemplate`; the argument `none` is the nil pointer. The stored template is the
argument with its `Variables` recomputed. -/
def PromptEngine.AddTemplate (e : PromptEngine) (tmpl : Option Template) :
    PromptEngine × Option GoError :=
  match tmpl with
  | none => (e, some (.new "template cannot be nil"))
  | some t =>
    if t.Name = "" then (e, some (.new "template name cannot be empty"))
    else if t.Content = "" then (e, some (.new "template content cannot be empty"))
    else
      let t := { t with Variables := extractVariables t.Content }
      (⟨mapSet e.templates t.Name t⟩, none)

/-- `GetTemplate`. -/
def PromptEngine.GetTemplate (e : PromptEngine) (name : String) :
    Option Template × Option GoError :=
  match mapGet e.templates name with
  | none => (none, some (.new ("template \x27" ++ name ++ "\x27 not found")))
  | some tmpl => (some tmpl, none)

/-- `RemoveTemplate`. -/
def PromptEngine.RemoveTemplate (e : PromptEngine) (name : String) :
    PromptEngine × Option GoError :=
  match mapGet e.templates name with
  | none => (e, some (.new ("template \x27" ++ name ++ "\x27 not found")))
  | some _ => (⟨mapDelete e.templates name⟩, none)

/-- The predefined templates `DefaultTemplates`. -/
def DefaultTemplates : List (String × Template) :=
  [("qa", ⟨"qa", "请回答以下问题：\n\n\x7b\x7b.question\x7d\x7d\n\n请提供详细、准确的答案。", "1.0", [],
      [("type", "question-answer")]⟩),
   ("translation", ⟨"translation",
      "请将以下文本翻译成\x7b\x7b.target_language\x7d\x7d：\n\n\x7b\x7b.text\x7d\x7d\n\n请保持原文的意思和风格。",
      "1.0", [], [("type", "translation")]⟩),
   ("summary", ⟨"summary", "请总结以下文本的主要内容：\n\n\x7b\x7b.text\x7d\x7d\n\n请提供简洁、准确的总结。", "1.0", [],
      [("type", "summarization")]⟩),
   ("code_review", ⟨"code_review",
      "请对以下代码进行审查：\n\n\x60\x60\x60\x7b\x7b.language\x7d\x7d\n\x7b\x7b.code\x7d\x7d\n\x60\x60\x60\n\n请从代码质量、安全性、性能等方面进行评估，并提供改进建议。",
      "1.0", [], [("type", "code-review")]⟩)]

/-! ### The part of `text/template` that `Render` uses

The template language is modelled on the contents made of plain text and actions of
the form `\x7b\x7b.name\x7d\x7d`, the name being an ASCII identifier, and on the left
delimiter followed by a third opening brace, which the parser rejects. Every other
action (pipelines, numbers, comments, trim markers, control structures) is outside the
model: the parse then has the outcome `unmodelled` and `Render` the result `none`.
The bindings are modelled for strings, integers and nil values; how the library prints
a value of another dynamic type depends on that type, and such a binding also gives
the result `none`. -/

/-- The nodes of a parsed template: literal text and the field of the data. -/
inductive TemplateNode where
  | text (s : List Char)
  | field (name : String)
  deriving DecidableEq

/-- The outcome of `template.New(name).Parse(content)`. -/
inductive ParseOutcome where
  | ok (nodes : List TemplateNode)
  | failed (err : GoError)
  | unmodelled
  deriving DecidableEq

/-- Puts nodes in front of the nodes of a successful parse. -/
def ParseOutcome.prepend (front : List TemplateNode) : ParseOutcome → ParseOutcome
  | .ok nodes => .ok (front ++ nodes)
  | .failed err => .failed err
  | .unmodelled => .unmodelled

/-- A character that may start the name of a field: an ASCII letter or the underscore. -/
def isIdentStart (c : Char) : Bool := c.isAlpha || c = '_'

/-- Whether a run of word characters starts like an identifier (not with a digit,
which would make the action a number). -/
def startsLikeIdent : List Char → Bool
  | [] => false
  | a :: _ => isIdentStart a

/-- The text node for the pending text `cur` (held reversed), if there is any,
followed by `nodes`. -/
def flushText (cur : List Char) (nodes : List TemplateNode) : List TemplateNode :=
  if cur = [] then nodes else .text cur.reverse :: nodes

/-- The lexing and parsing of a template: text up to the next left delimiter becomes
a text node; a left delimiter that opens `\x7b\x7b.name\x7d\x7d` gives a field node; a left
delimiter followed by an opening brace is the parse error `unexpected "\x7b" in command`
reported with the template name and the line; any other action is outside the model.
`skip` counts the characters of the last action still to be passed, `line` is the
current line, `cur` the pending text, reversed. -/
def parseLoop (name : String) : ℕ → ℕ → List Char → List Char → ParseOutcome
  | _, _, cur, [] => .ok (flushText cur [])
  | skip + 1, line, cur, _ :: cs => parseLoop name skip line cur cs
  | 0, line, cur, c :: cs =>
    if startsWith "\x7b\x7b".data (c :: cs) then
      match matchPlaceholder (c :: cs) with
      | some w =>
        if startsLikeIdent w then
          (parseLoop name (w.length + 4) line [] cs).prepend
            (flushText cur [.field (String.mk w)])
        else .unmodelled
      | none =>
        if startsWith "\x7b\x7b\x7b".data (c :: cs) then
          .failed (.new ("template: " ++ name ++ ":" ++ toString line
            ++ ": unexpected \"\x7b\" in command"))
        else .unmodelled
    else parseLoop name 0 (if c = '\n' then line + 1 else line) (c :: cur) cs

/-- `template.New(name).Parse(content)`. -/
def templateParse (name content : String) : ParseOutcome :=
  parseLoop name 0 1 [] content.data

/-- What the execution prints for the value of a field of the data map: a missing
entry and a nil value print `<no value>`, a string prints as it is, an integer prints
in decimal. For a value of another dynamic type the library looks at the type: it
follows pointers, calls the methods `Error` and `String`, and refuses channels and
functions with an error; these values are outside the model, the result is `none`. -/
def printValue : Option Value → Option String
  | none => some "<no value>"
  | some .nil => some "<no value>"
  | some (.str s) => some s
  | some (.int n) => some (toString n)
  | some (.other _) => none

/-- The text printed for the placeholder `y` under the bindings `data` (empty for a
value outside the model). -/
def printedText (data : List (String × Value)) (y : String) : String :=
  (printValue (mapGet data y)).getD ""

/-- The outcome of `t.Execute(&buf, data)`: the text written, the error of the
execution, or a value outside the model. The execution fails only on values that the
library cannot print, which are among those outside the model, so the executions
described here end in `ok` or in `unmodelled`. -/
inductive ExecOutcome where
  | ok (out : List Char)
  | failed (err : GoError)
  | unmodelled
  deriving DecidableEq

/-- The execution of the nodes against the data map, writing behind `buf`. -/
def executeNodes (data : List (String × Value)) : List TemplateNode → List Char → ExecOutcome
  | [], buf => .ok buf
  | .text s :: rest, buf => executeNodes data rest (buf ++ s)
  | .field x :: rest, buf =>
    match printValue (mapGet data x) with
    | some shown => executeNodes data rest (buf ++ shown.data)
    | none => .unmodelled

/-- `Render`. The result `none` stands for a content outside the modelled part of the
template language or for a binding outside the modelled values. -/
def PromptEngine.Render (e : PromptEngine) (name : String) (data : List (String × Value)) :
    Option (String × Option GoError) :=
  match e.GetTemplate name with
  | (_, some err) => some ("", some err)
  | (none, none) => none
  | (some tmpl, none) =>
    match templateParse tmpl.Name tmpl.Content with
    | .unmodelled => none
    | .failed err => some ("", some (ErrorfW "failed to parse template: " err))
    | .ok nodes =>
      match executeNodes data nodes [] with
      | .unmodelled => none
      | .failed err => some ("", some (ErrorfW "failed to execute template: " err))
      | .ok out => some (String.mk out, none)

/-- `RenderWithVariables`. -/
def PromptEngine.RenderWithVariables (e : PromptEngine) (name : String)
    (variables_ : List (String × String)) : Option (String × Option GoError) :=
  e.Render name (variables_.map (fun kv => (kv.1, Value.str kv.2)))

/-- An engine holding the predefined template `translation`. -/
def translationEngine : PromptEngine :=
  (NewPromptEngine.AddTemplate (mapGet DefaultTemplates "translation")).1

/-- An engine holding the predefined template `qa`. -/
def qaEngine : PromptEngine :=
  (NewPromptEngine.AddTemplate (mapGet DefaultTemplates "qa")).1

/-- An engine holding a template whose text ends in an opening brace right before a
placeholder. -/
def braceEngine : PromptEngine :=
  (NewPromptEngine.AddTemplate (some ⟨"t", "a\x7b\x7b\x7b.x\x7d\x7d", "1.0", [], []⟩)).1

/-- The text of the placeholder of an identifier: the identifier between the opening
`\x7b\x7b.` and the closing `\x7d\x7d`. -/
def placeholderOf (x : List Char) : List Char := "\x7b\x7b.".data ++ x ++ "\x7d\x7d".data

/-- An identifier in the sense of the regexp: a non-empty run of word characters. -/
def IsWord (x : List Char) : Prop := x ≠ [] ∧ ∀ c ∈ x, isWordChar c = true

/-- The identifier `x` occurs in the content inside a placeholder. -/
def OccursAsPlaceholder (x content : String) : Prop :=
  IsWord x.data ∧ occursIn (placeholderOf x.data) content.data = true

/-- The position of the first occurrence of `pat` in the text (the length of the text
when there is none). -/
def firstIndex (pat : List Char) : List Char → ℕ
  | [] => 0
  | c :: cs => if startsWith pat (c :: cs) then 0 else firstIndex pat cs + 1

/-- The groups of the matches of the regexp at all positions of the text, from left
to right. -/
def capturesFrom : List Char → List (List Char)
  | [] => []
  | c :: cs =>
    match matchPlaceholder (c :: cs) with
    | some w => w :: capturesFrom cs
    | none => capturesFrom cs

/-- Appending to `vars`, in order, the names that are not yet in it. -/
def collectNew : List String → List String → List String
  | [], vars => vars
  | w :: ws, vars => if w ∈ vars then collectNew ws vars else collectNew ws (vars ++ [w])

/-- A content seen as a sequence of segments: literal text and placeholders. -/
inductive Segment where
  | lit (s : String)
  | hole (x : String)
  deriving DecidableEq

/-- The text of a sequence of segments, a placeholder being written
`\x7b\x7b.name\x7d\x7d`. -/
def sourceText : List Segment → List Char
  | [] => []
  | .lit s :: rest => s.data ++ sourceText rest
  | .hole x :: rest => placeholderOf x.data ++ sourceText rest

/-- The content made of the segments. -/
def composeContent (segs : List Segment) : String := String.mk (sourceText segs)

/-- The text of the segments with every placeholder replaced by the text that `σ`
gives for its name, the literal text unchanged. -/
def filledText (σ : String → String) : List Segment → List Char
  | [] => []
  | .lit s :: rest => s.data ++ filledText σ rest
  | .hole x :: rest => (σ x).data ++ filledText σ rest

/-- The content with every placeholder replaced. -/
def fillWith (σ : String → String) (segs : List Segment) : String :=
  String.mk (filledText σ segs)

/-- The names of the placeholders of the segments. -/
def holes : List Segment → List String
  | [] => []
  | .lit _ :: rest => holes rest
  | .hole x :: rest => x :: holes rest

/-- An ASCII identifier: word characters, the first of them a letter or underscore. -/
def IsIdent (x : List Char) : Prop := IsWord x ∧ startsLikeIdent x = true

/-- The segments are what the template language reads them as: every placeholder name
is an identifier, and no literal segment, read together with the character that
follows it in the content, contains the left delimiter. -/
def Fits : List Segment → Prop
  | [] => True
  | .lit s :: rest =>
    occursIn "\x7b\x7b".data (s.data ++ (sourceText rest).take 1) = false ∧ Fits rest
  | .hole x :: rest => IsIdent x.data ∧ Fits rest

/-! ## Operations as transitions on the state of their receiver

The methods that read their receiver without assigning to it were given above as
functions of the receiver. Here they are given together with the receiver after the
call, the state being threaded through the statements of the body, so that what a
call leaves unchanged can be stated. -/

/-- `GetTemplate` with the engine after the call: the body reads `e.templates` and
assigns nothing. -/
def PromptEngine.GetTemplateSt (e : PromptEngine) (name : String) :
    PromptEngine × Option Template × Option GoError :=
  match mapGet e.templates name with
  | none => (e, none, some (.new ("template \x27" ++ name ++ "\x27 not found")))
  | some tmpl => (e, some tmpl, none)

/-- `Render` with the engine after the call: the engine is the one that `GetTemplate`
leaves, parsing and executing work on the content and on a local buffer. -/
def PromptEngine.RenderSt (e : PromptEngine) (name : String) (data : List (String × Value)) :
    Option (PromptEngine × String × Option GoError) :=
  match e.GetTemplateSt name with
  | (e1, _, some err) => some (e1, "", some err)
  | (_, none, none) => none
  | (e1, some tmpl, none) =>
    match templateParse tmpl.Name tmpl.Content with
    | .unmodelled => none
    | .failed err => some (e1, "", some (ErrorfW "failed to parse template: " err))
    | .ok nodes =>
      match executeNodes data nodes [] with
      | .unmodelled => none
      | .failed err => some (e1, "", some (ErrorfW "failed to execute template: " err))
      | .ok out => some (e1, String.mk out, none)

/-- The engines that can be reached from `NewPromptEngine` by calls of `AddTemplate`
and `RemoveTemplate`. -/
inductive PromptEngine.Reachable : PromptEngine → Prop where
  | new : PromptEngine.Reachable NewPromptEngine
  | add (e : PromptEngine) (tmpl : Option Template) :
      PromptEngine.Reachable e → PromptEngine.Reachable (e.AddTemplate tmpl).1
  | remove (e : PromptEngine) (name : String) :
      PromptEngine.Reachable e → PromptEngine.Reachable (e.RemoveTemplate name).1

/-- The memory that the second loop of `Retrieve` works on: the map behind the
receiver and the local slice `results`. -/
structure RetrieveState where
  documents : List (String × Document)
  results : List Document

/-- The second loop of `Retrieve` on that memory. The statement
`doc := *r.documents[id]` copies the stored struct into the local `doc`,
`doc.Score = score` assigns to that local, and `append` extends `results`; the map
is read only. -/
def SimpleRetriever.resultsLoopSt (limit : Int) :
    List (String × ℚ) → RetrieveState → RetrieveState
  | [], st => st
  | (id, score) :: rest, st =>
    match mapGet st.documents id with
    | none => SimpleRetriever.resultsLoopSt limit rest st
    | some stored =>
      let doc := stored
      let doc := { doc with Score := score }
      let st := { st with results := st.results ++ [doc] }
      if (st.results.length : Int) ≥ limit then st
      else SimpleRetriever.resultsLoopSt limit rest st

/-- `Retrieve` with the store after the call. The first loop reads the contents of the
stored documents and writes the local map `scores`; the second loop is
`resultsLoopSt`. -/
def SimpleRetriever.RetrieveSt (lower : String → String) (ord : RangeOrder)
    (r : SimpleRetriever) (query : String) (limit : Int) :
    SimpleRetriever × List Document × Option GoError :=
  let limit := if limit ≤ 0 then 5 else limit
  let query := lower query
  let queryWords := Fields query
  let scores := SimpleRetriever.scoresLoop lower queryWords (ord.order r.documents) []
  let st := SimpleRetriever.resultsLoopSt limit (ord.order scores) ⟨r.documents, []⟩
  (⟨st.documents⟩, st.results, none)

/-- The operations on a chain. -/
inductive ChainOp (Ctx : Type) where
  | addStep (step : Step Ctx)
  | clear
  | run (ctx : Ctx) (input : Value)
  | runString (ctx : Ctx) (input : String)
  | getStepCount

/-- Whether the operation is `Clear`. -/
def ChainOp.isClear {Ctx : Type} : ChainOp Ctx → Bool
  | .clear => true
  | _ => false

/-- Whether the operation is `AddStep`. -/
def ChainOp.isAddStep {Ctx : Type} : ChainOp Ctx → Bool
  | .addStep _ => true
  | _ => false

/-- The chain after an operation: `AddStep` and `Clear` assign to `c.steps`; `Run`,
`RunString` and `GetStepCount` hold the read lock and only read `c.steps`. -/
def Chain.apply {Ctx : Type} (c : Chain Ctx) : ChainOp Ctx → Chain Ctx
  | .addStep step => c.AddStep step
  | .clear => c.Clear
  | .run _ _ => c
  | .runString _ _ => c
  | .getStepCount => c

/-- The chain after a sequence of operations, applied from left to right. -/
def Chain.applyAll {Ctx : Type} (c : Chain Ctx) (ops : List (ChainOp Ctx)) : Chain Ctx :=
  ops.foldl Chain.apply c

/-- The number of `AddStep` operations of the sequence that come after its last
`Clear` (all of them when there is no `Clear`). -/
def addsSinceClear {Ctx : Type} (ops : List (ChainOp Ctx)) : ℕ :=
  (ops.reverse.takeWhile (fun op => !op.isClear)).countP ChainOp.isAddStep

/-- An engine holding the predefined templates `qa` and `summary`. -/
def twoTemplateEngine : PromptEngine :=
  (qaEngine.AddTemplate (mapGet DefaultTemplates "summary")).1

/-- A retriever that fails on every call, with an error whose message records the
query and the limit it was called with. -/
def echoRetriever : Retriever Unit :=
  ⟨fun _ query limit => ([], some (.new (query ++ "|" ++ toString limit)))⟩

/-- The loop with which the programs register the predefined templates on their
engine: `for name, tmpl := range prompt.DefaultTemplates` calling `AddTemplate(tmpl)`,
a failure being logged only. -/
def registerDefaults (ord : RangeOrder) (e : PromptEngine) : PromptEngine :=
  (ord.order DefaultTemplates).foldl (fun e p => (e.AddTemplate (some p.2)).1) e

/-- The variables that the description gives for each predefined template. -/
def describedVariables : List (String × List String) :=
  [("qa", ["question"]), ("translation", ["target_language", "text"]),
    ("summary", ["text"]), ("code_review", ["language", "code"])]

/-- A step that replaces its input by the number 42. -/
def numberStep : Step Unit := fun _ _ => (.int 42, none)

/-! ## Theorems: chain.go -/

section ChainLemmas

variable {Ctx : Type}

theorem runLoop_of_allSucceed (ctx : Ctx) (steps : List (Step Ctx)) :
    ∀ (i : Nat) (v : Value), AllSucceed ctx steps v →
      Chain.runLoop ctx i steps v = (threadSteps ctx steps v, none) := by
  induction steps with
  | nil => intro i v _; rfl
  | cons s rest ih =>
    intro i v h
    obtain ⟨h1, h2⟩ := h
    have hs : s ctx v = ((s ctx v).1, none) := by rw [← h1]
    rw [Chain.runLoop, hs]
    simpa [threadSteps] using ih (i + 1) (s ctx v).1 h2

theorem runLoop_append_fail (ctx : Ctx) (pre : List (Step Ctx)) :
    ∀ (i : Nat) (v r x : Value) (e : GoError) (s : Step Ctx) (rest : List (Step Ctx)),
      Chain.runLoop ctx i pre v = (r, none) → s ctx r = (x, some e) →
      Chain.runLoop ctx i (pre ++ s :: rest) v =
        (Value.nil, some (ErrorfW ("step " ++ toString (i + pre.length) ++ " failed: ") e)) := by
  induction pre with
  | nil =>
    intro i v r x e s rest h hs
    simp only [Chain.runLoop, Prod.mk.injEq, and_true] at h
    subst h
    simp [Chain.runLoop, hs]
  | cons p pre ih =>
    intro i v r x e s rest h hs
    rw [List.cons_append, Chain.runLoop]
    rw [Chain.runLoop] at h
    rcases hp : p ctx v with ⟨a, _ | err⟩
    · rw [hp] at h
      simp only at h ⊢
      rw [ih (i + 1) a r x e s rest h hs]
      simp [Nat.add_assoc, Nat.add_comm 1]
    · rw [hp] at h
      simp at h

end ChainLemmas

/-- C1: if every step succeeds when applied in order to the threaded value, `Run`
returns a nil error and the left-to-right fold of the steps over the input; the
empty chain returns its input unchanged. -/
theorem Chain_Run_success {Ctx : Type} (c : Chain Ctx) (ctx : Ctx) (v : Value)
    (h : AllSucceed ctx c.steps v) :
    c.Run ctx v = (threadSteps ctx c.steps v, none) ∧
      (NewChain : Chain Ctx).Run ctx v = (v, none) :=
  ⟨runLoop_of_allSucceed ctx c.steps 0 v h, rfl⟩

theorem Chain_Run_success_witness :
    AllSucceed () exampleChain.steps (.str "测试输入") ∧
      exampleChain.Run () (.str "测试输入")
        = (.str "最终结果: 预处理: 测试输入 [已增强]", none) := by
  have h : AllSucceed () exampleChain.steps (.str "测试输入") := by
    simp [AllSucceed, exampleChain, NewChain, Chain.AddStep, exampleStep1, exampleStep2,
      exampleStep3]
  refine ⟨h, ?_⟩
  rw [(Chain_Run_success exampleChain () (.str "测试输入") h).1]
  simp [threadSteps, exampleChain, NewChain, Chain.AddStep, exampleStep1, exampleStep2,
    exampleStep3]

/-- C2: when the steps before index `i` all succeed on the threaded value and step `i`
returns the error `e` on it, `Run` returns the nil value and an error that unwraps to
`e` and whose message is `step i failed: ` followed by the message of `e`, whatever the
steps after index `i` are. -/
theorem Chain_Run_first_failure {Ctx : Type} (ctx : Ctx) (pre rest : List (Step Ctx))
    (s : Step Ctx) (v : Value) (e : GoError)
    (hpre : AllSucceed ctx pre v) (hs : (s ctx (threadSteps ctx pre v)).2 = some e) :
    ∃ err, (Chain.mk (pre ++ s :: rest)).Run ctx v = (Value.nil, some err) ∧
      err.Unwrap = some e ∧
      err.Error = "step " ++ toString pre.length ++ " failed: " ++ e.Error ∧
      ∀ rest2 : List (Step Ctx),
        (Chain.mk (pre ++ s :: rest2)).Run ctx v = (Value.nil, some err) := by
  have hp := runLoop_of_allSucceed ctx pre 0 v hpre
  have hs2 : s ctx (threadSteps ctx pre v) = ((s ctx (threadSteps ctx pre v)).1, some e) := by
    rw [← hs]
  refine ⟨ErrorfW ("step " ++ toString pre.length ++ " failed: ") e, ?_, rfl, rfl, ?_⟩
  · simpa [Chain.Run] using runLoop_append_fail ctx pre 0 v _ _ e s rest hp hs2
  · intro rest2
    simpa [Chain.Run] using runLoop_append_fail ctx pre 0 v _ _ e s rest2 hp hs2

theorem Chain_Run_first_failure_witness :
    ∃ err, (Chain.mk [exampleStep1, failingStep, exampleStep3]).Run () (.str "q")
        = (Value.nil, some err) ∧
      err.Unwrap = some (.new "boom") ∧
      err.Error = "step " ++ toString [exampleStep1].length ++ " failed: "
        ++ (GoError.new "boom").Error ∧
      ∀ rest2 : List (Step Unit),
        (Chain.mk ([exampleStep1] ++ failingStep :: rest2)).Run () (.str "q")
          = (Value.nil, some err) :=
  Chain_Run_first_failure () [exampleStep1] [exampleStep3] failingStep (.str "q")
    (.new "boom") ⟨rfl, trivial⟩ rfl

/-! ## Theorems: rag.go -/

theorem scoreLoop_eq (content : String) (ws : List String) (a : ℚ) :
    SimpleRetriever.scoreLoop content ws a
      = a + ((ws.countP (fun w => Contains content w) : ℕ) : ℚ) := by
  induction ws generalizing a with
  | nil => simp [SimpleRetriever.scoreLoop]
  | cons w ws ih =>
    rw [SimpleRetriever.scoreLoop, ih]
    by_cases h : Contains content w = true
    · simp [h, List.countP_cons]; ring
    · simp [h, List.countP_cons]

theorem scoreLoop_zero (lower : String → String) (content query : String) :
    SimpleRetriever.scoreLoop (lower content) (Fields (lower query)) 0
      = (tokenHits lower content query : ℚ) := by
  rw [scoreLoop_eq]; simp [tokenHits]

theorem mapSet_fresh {V : Type} (m : List (String × V)) (k : String) (v : V)
    (h : k ∉ mapKeys m) : mapSet m k v = m ++ [(k, v)] := by
  induction m with
  | nil => rfl
  | cons p m ih =>
    obtain ⟨a, b⟩ := p
    simp only [mapKeys, List.map_cons, List.mem_cons, not_or] at h
    have hne : ¬ a = k := fun hh => h.1 hh.symm
    simp only [mapSet, hne, if_false, List.cons_append]
    rw [ih h.2]

theorem mapGet_of_mem {V : Type} (m : List (String × V)) (k : String) (v : V)
    (hnd : (mapKeys m).Nodup) (h : (k, v) ∈ m) : mapGet m k = some v := by
  induction m with
  | nil => simp at h
  | cons p m ih =>
    obtain ⟨a, b⟩ := p
    simp only [mapKeys, List.map_cons, List.nodup_cons] at hnd
    rcases List.mem_cons.1 h with h1 | h1
    · cases h1; simp [mapGet]
    · have hne : ¬ a = k := by
        intro hh
        apply hnd.1
        rw [hh]
        exact List.mem_map_of_mem Prod.fst h1
      simp only [mapGet, hne, if_false]
      exact ih hnd.2 h1

theorem scoresLoop_eq (lower : String → String) (query : String)
    (docs : List (String × Document)) :
    ∀ acc : List (String × ℚ), (mapKeys docs).Nodup →
      (∀ k ∈ mapKeys docs, k ∉ mapKeys acc) →
      SimpleRetriever.scoresLoop lower (Fields (lower query)) docs acc
        = acc ++ (docs.filter (fun p => 0 < tokenHits lower p.2.Content query)).map
            (fun p => (p.1, (tokenHits lower p.2.Content query : ℚ))) := by
  induction docs with
  | nil => intro acc _ _; simp [SimpleRetriever.scoresLoop]
  | cons p docs ih =>
    intro acc hnd hdis
    obtain ⟨id, doc⟩ := p
    simp only [mapKeys, List.map_cons, List.nodup_cons] at hnd
    have hfresh : id ∉ mapKeys acc := hdis id (by simp [mapKeys])
    simp only [SimpleRetriever.scoresLoop, scoreLoop_zero]
    by_cases hpos : 0 < tokenHits lower doc.Content query
    · have hq : (0 : ℚ) < (tokenHits lower doc.Content query : ℚ) := by exact_mod_cast hpos
      rw [if_pos hq, mapSet_fresh _ _ _ hfresh, ih _ hnd.2]
      · simp [List.filter_cons, hpos]
      · intro k hk
        simp only [mapKeys, List.map_append, List.map_cons, List.map_nil, List.mem_append,
          List.mem_singleton, not_or]
        refine ⟨hdis k (by simp only [mapKeys, List.map_cons]; exact List.mem_cons_of_mem _ hk), ?_⟩
        intro hh
        apply hnd.1
        rw [← hh]
        exact hk
    · have hq : ¬ (0 : ℚ) < (tokenHits lower doc.Content query : ℚ) := by
        intro hh; apply hpos; exact_mod_cast hh
      rw [if_neg hq, ih _ hnd.2]
      · simp [List.filter_cons, hpos]
      · intro k hk
        exact hdis k (by simp only [mapKeys, List.map_cons]; exact List.mem_cons_of_mem _ hk)

theorem resultsLoop_eq (r : SimpleRetriever) (n : ℕ) (it : List (String × ℚ)) :
    ∀ results : List Document, results.length < n →
      SimpleRetriever.resultsLoop r (n : Int) it results
        = results ++ (it.filterMap (stampedCopy r)).take (n - results.length) := by
  induction it with
  | nil => intro results _; simp [SimpleRetriever.resultsLoop]
  | cons e it ih =>
    intro results hlt
    obtain ⟨id, score⟩ := e
    rw [SimpleRetriever.resultsLoop]
    cases hget : mapGet r.documents id with
    | none =>
      simp only []
      rw [ih results hlt]
      simp [List.filterMap_cons, stampedCopy, hget]
    | some stored =>
      simp only []
      have hfm : (((id, score) :: it).filterMap (stampedCopy r))
          = { stored with Score := score } :: it.filterMap (stampedCopy r) := by
        simp [List.filterMap_cons, stampedCopy, hget]
      rw [hfm]
      obtain ⟨m, hm⟩ : ∃ m, n - results.length = m + 1 := ⟨n - results.length - 1, by omega⟩
      rw [hm, List.take_succ_cons]
      by_cases hge : ((results ++ [{ stored with Score := score }]).length : Int) ≥ (n : Int)
      · rw [if_pos hge]
        have hm0 : m = 0 := by
          simp only [List.length_append, List.length_singleton] at hge
          omega
        simp [hm0]
      · rw [if_neg hge]
        have hlt2 : (results ++ [{ stored with Score := score }]).length < n := by
          omega
        rw [ih _ hlt2]
        have : n - (results ++ [{ stored with Score := score }]).length = m := by
          simp only [List.length_append, List.length_singleton]
          omega
        rw [this]
        simp

theorem effectiveLimit_pos (limit : Int) : 0 < effectiveLimit limit := by
  unfold effectiveLimit
  split <;> omega

theorem effectiveLimit_cast (limit : Int) :
    (if limit ≤ 0 then 5 else limit) = (((effectiveLimit limit).toNat : ℕ) : Int) := by
  have h := effectiveLimit_pos limit
  rw [Int.toNat_of_nonneg (le_of_lt h)]
  unfold effectiveLimit
  split <;> split <;> omega

theorem retrieve_eq (lower : String → String) (ord : RangeOrder) (r : SimpleRetriever)
    (query : String) (limit : Int) (hnd : (mapKeys r.documents).Nodup) :
    ∃ it : List (String × ℚ), it.Perm (scoreEntries lower r query) ∧
      r.Retrieve lower ord query limit
        = ((it.filterMap (stampedCopy r)).take (effectiveLimit limit).toNat, none) := by
  have hperm : (ord.order r.documents).Perm r.documents := ord.perm _
  have hnd1 : (mapKeys (ord.order r.documents)).Nodup :=
    ((hperm.map Prod.fst).nodup_iff).2 hnd
  have hscores := scoresLoop_eq lower query (ord.order r.documents) [] hnd1
    (by intro k _; simp [mapKeys])
  rw [List.nil_append] at hscores
  refine ⟨ord.order ((((ord.order r.documents).filter
      (fun p => 0 < tokenHits lower p.2.Content query)).map
      (fun p => (p.1, (tokenHits lower p.2.Content query : ℚ))))), ?_, ?_⟩
  · exact (ord.perm _).trans ((hperm.filter _).map _)
  · have hpos : 0 < (effectiveLimit limit).toNat := by
      have := effectiveLimit_pos limit
      omega
    simp only [SimpleRetriever.Retrieve]
    rw [hscores, effectiveLimit_cast, resultsLoop_eq r _ _ [] (by simpa using hpos)]
    simp

theorem stampedCopy_entry (lower : String → String) (r : SimpleRetriever) (query : String)
    (hnd : (mapKeys r.documents).Nodup) (e : String × ℚ) (he : e ∈ scoreEntries lower r query) :
    ∃ p ∈ r.documents, 0 < tokenHits lower p.2.Content query ∧ e.1 = p.1 ∧
      stampedCopy r e
        = some { p.2 with Score := (tokenHits lower p.2.Content query : ℚ) } := by
  simp only [scoreEntries, List.mem_map, List.mem_filter, decide_eq_true_eq] at he
  obtain ⟨p, ⟨hp, hpos⟩, rfl⟩ := he
  refine ⟨p, hp, hpos, rfl, ?_⟩
  have hget : mapGet r.documents p.1 = some p.2 := mapGet_of_mem _ _ _ hnd hp
  simp [stampedCopy, hget]

theorem filterMap_length_of_some {α β : Type} (f : α → Option β) (l : List α)
    (h : ∀ a ∈ l, ∃ b, f a = some b) : (l.filterMap f).length = l.length := by
  induction l with
  | nil => rfl
  | cons a l ih =>
    obtain ⟨b, hb⟩ := h a (List.mem_cons_self _ _)
    rw [List.filterMap_cons_some hb, List.length_cons, List.length_cons,
      ih (fun x hx => h x (List.mem_cons_of_mem _ hx))]

theorem filterMap_ids (r : SimpleRetriever) (l : List (String × ℚ))
    (h : ∀ e ∈ l, ∃ d, stampedCopy r e = some d ∧ d.ID = e.1) :
    (l.filterMap (stampedCopy r)).map Document.ID = l.map Prod.fst := by
  induction l with
  | nil => rfl
  | cons a l ih =>
    obtain ⟨d, hd, hid⟩ := h a (List.mem_cons_self _ _)
    rw [List.filterMap_cons_some hd, List.map_cons, List.map_cons, hid,
      ih (fun x hx => h x (List.mem_cons_of_mem _ hx))]

theorem scoreEntries_length (lower : String → String) (r : SimpleRetriever) (query : String) :
    (scoreEntries lower r query).length = (matchingDocuments lower r query).length := by
  simp only [scoreEntries, matchingDocuments, List.length_map]

theorem entry_eq_of_key_eq {V : Type} (m : List (String × V)) (hnd : (mapKeys m).Nodup)
    (p q : String × V) (hp : p ∈ m) (hq : q ∈ m) (hk : p.1 = q.1) : p = q := by
  obtain ⟨k, v⟩ := p
  obtain ⟨k2, w⟩ := q
  simp only at hk
  subst hk
  have h1 := mapGet_of_mem m k v hnd hp
  have h2 := mapGet_of_mem m k w hnd hq
  rw [h1] at h2
  rw [Option.some.inj h2]

theorem retrieve_members (lower : String → String) (ord : RangeOrder) (r : SimpleRetriever)
    (query : String) (limit : Int) (hnd : (mapKeys r.documents).Nodup) :
    ∀ d ∈ (r.Retrieve lower ord query limit).1, ∃ p ∈ r.documents,
      0 < tokenHits lower p.2.Content query ∧
      d = { p.2 with Score := (tokenHits lower p.2.Content query : ℚ) } := by
  obtain ⟨it, hperm, heq⟩ := retrieve_eq lower ord r query limit hnd
  intro d hd
  rw [heq] at hd
  have hd2 := List.mem_of_mem_take hd
  obtain ⟨e, he, hed⟩ := List.mem_filterMap.1 hd2
  obtain ⟨p, hp, hpos, _, hcopy⟩ :=
    stampedCopy_entry lower r query hnd e (hperm.mem_iff.1 he)
  refine ⟨p, hp, hpos, ?_⟩
  rw [hcopy] at hed
  exact (Option.some.inj hed).symm

theorem retrieve_length (lower : String → String) (ord : RangeOrder) (r : SimpleRetriever)
    (query : String) (limit : Int) (hnd : (mapKeys r.documents).Nodup) :
    (((r.Retrieve lower ord query limit).1.length : ℕ) : Int)
      = min (effectiveLimit limit) ((matchingDocuments lower r query).length : Int) := by
  obtain ⟨it, hperm, heq⟩ := retrieve_eq lower ord r query limit hnd
  rw [heq]
  have hall : ∀ e ∈ it, ∃ d, stampedCopy r e = some d := by
    intro e he
    obtain ⟨p, _, _, _, hcopy⟩ :=
      stampedCopy_entry lower r query hnd e (hperm.mem_iff.1 he)
    exact ⟨_, hcopy⟩
  have hpos := effectiveLimit_pos limit
  simp only [List.length_take, filterMap_length_of_some _ _ hall, hperm.length_eq,
    scoreEntries_length]
  omega

theorem retrieve_ids_nodup (lower : String → String) (ord : RangeOrder) (r : SimpleRetriever)
    (query : String) (limit : Int) (hwf : r.WellFormed) :
    ((r.Retrieve lower ord query limit).1.map Document.ID).Nodup := by
  obtain ⟨it, hperm, heq⟩ := retrieve_eq lower ord r query limit hwf.1
  rw [heq]
  have hall : ∀ e ∈ it, ∃ d, stampedCopy r e = some d ∧ d.ID = e.1 := by
    intro e he
    obtain ⟨p, hp, _, hk, hcopy⟩ :=
      stampedCopy_entry lower r query hwf.1 e (hperm.mem_iff.1 he)
    refine ⟨_, hcopy, ?_⟩
    rw [hk]
    exact hwf.2 p hp
  have hkeys : (it.map Prod.fst).Nodup := by
    rw [(hperm.map Prod.fst).nodup_iff]
    have hsub : ((scoreEntries lower r query).map Prod.fst).Sublist (mapKeys r.documents) := by
      simp only [scoreEntries, List.map_map, mapKeys]
      exact (List.filter_sublist _).map Prod.fst
    exact hwf.1.sublist hsub
  simp only []
  rw [List.map_take, filterMap_ids r it hall]
  exact hkeys.sublist (List.take_sublist _ _)

theorem mapKeys_mapSet {V : Type} (m : List (String × V)) (k : String) (v : V) :
    mapKeys (mapSet m k v) = if k ∈ mapKeys m then mapKeys m else mapKeys m ++ [k] := by
  induction m with
  | nil => simp [mapSet, mapKeys]
  | cons p m ih =>
    obtain ⟨a, b⟩ := p
    by_cases hak : a = k
    · subst hak
      simp [mapSet, mapKeys]
    · have hka : ¬ k = a := fun h => hak h.symm
      simp only [mapKeys] at ih
      simp only [mapSet, hak, if_false, mapKeys, List.map_cons, ih, List.mem_cons, hka,
        false_or]
      split_ifs <;> simp

theorem mem_mapSet {V : Type} (m : List (String × V)) (k : String) (v : V)
    (p : String × V) (hp : p ∈ mapSet m k v) : p = (k, v) ∨ p ∈ m := by
  induction m with
  | nil => simpa [mapSet] using hp
  | cons q m ih =>
    obtain ⟨a, b⟩ := q
    by_cases hak : a = k
    · simp only [mapSet, hak, if_true, List.mem_cons] at hp
      rcases hp with h | h
      · exact Or.inl h
      · exact Or.inr (List.mem_cons_of_mem _ h)
    · simp only [mapSet, hak, if_false, List.mem_cons] at hp
      rcases hp with h | h
      · exact Or.inr (by rw [h]; exact List.mem_cons_self _ _)
      · rcases ih h with h2 | h2
        · exact Or.inl h2
        · exact Or.inr (List.mem_cons_of_mem _ h2)

theorem mapDelete_sublist {V : Type} (m : List (String × V)) (k : String) :
    (mapDelete m k).Sublist m := by
  induction m with
  | nil => exact List.Sublist.refl _
  | cons q m ih =>
    obtain ⟨a, b⟩ := q
    by_cases hak : a = k
    · simp only [mapDelete, hak, if_true]
      exact List.sublist_cons_self _ _
    · simp only [mapDelete, hak, if_false]
      exact ih.cons₂ _

/-- The store invariant holds for the empty store and is kept by `AddDocument` and
`RemoveDocument`. -/
theorem wellFormed_preserved :
    NewSimpleRetriever.WellFormed ∧
    (∀ (r : SimpleRetriever) (doc : Option Document), r.WellFormed →
      (r.AddDocument doc).1.WellFormed) ∧
    (∀ (r : SimpleRetriever) (id : String), r.WellFormed →
      (r.RemoveDocument id).1.WellFormed) := by
  refine ⟨by simp [SimpleRetriever.WellFormed, NewSimpleRetriever, mapKeys], ?_, ?_⟩
  · intro r doc hwf
    cases doc with
    | none => exact hwf
    | some d =>
      by_cases hid : d.ID = ""
      · simpa [SimpleRetriever.AddDocument, hid] using hwf
      · simp only [SimpleRetriever.AddDocument, hid, if_false]
        constructor
        · show (mapKeys (mapSet r.documents d.ID d)).Nodup
          rw [mapKeys_mapSet]
          split_ifs with hmem
          · exact hwf.1
          · rw [List.nodup_append]
            refine ⟨hwf.1, List.nodup_singleton _, ?_⟩
            intro a ha hb
            rw [List.mem_singleton] at hb
            exact hmem (hb ▸ ha)
        · intro p hp
          rcases mem_mapSet _ _ _ p hp with h | h
          · rw [h]
          · exact hwf.2 p h
  · intro r id hwf
    cases hget : mapGet r.documents id with
    | none => simpa [SimpleRetriever.RemoveDocument, hget] using hwf
    | some d =>
      simp only [SimpleRetriever.RemoveDocument, hget]
      constructor
      · exact hwf.1.sublist ((mapDelete_sublist r.documents id).map Prod.fst)
      · intro p hp
        exact hwf.2 p ((mapDelete_sublist r.documents id).subset hp)

theorem storeGo_wellFormed : storeGo.WellFormed := by
  simp [SimpleRetriever.WellFormed, storeGo, mapKeys]

theorem storeTwo_wellFormed : storeTwo.WellFormed := by
  simp [SimpleRetriever.WellFormed, storeTwo, mapKeys]

/-- C3, as stated, fails: for the query `go go` the stored document with content `go`
is returned with score 2, while one distinct token of the query occurs in it. -/
theorem Retrieve_distinct_score_counterexample :
    storeGo.WellFormed ∧
      (storeGo.Retrieve asciiToLower RangeOrder.asStored "go go" 5).1
        = [⟨"d1", "go", [], 2⟩] ∧
      distinctTokenHits asciiToLower "go" "go go" = 1 ∧
      ¬ (∀ d ∈ (storeGo.Retrieve asciiToLower RangeOrder.asStored "go go" 5).1,
          d.Score = (distinctTokenHits asciiToLower d.Content "go go" : ℚ)) := by
  have hf : Fields (asciiToLower "go go") = ["go", "go"] := by decide
  have hl : asciiToLower "go" = "go" := by decide
  have hc : Contains "go" "go" = true := by decide
  have hres : (storeGo.Retrieve asciiToLower RangeOrder.asStored "go go" 5).1
      = [⟨"d1", "go", [], 2⟩] := by
    simp only [SimpleRetriever.Retrieve, RangeOrder.asStored, storeGo]
    simp only [hf, SimpleRetriever.scoresLoop, hl]
    simp only [SimpleRetriever.scoreLoop, hc]
    norm_num [mapSet, SimpleRetriever.resultsLoop, mapGet]
  have hd : distinctTokenHits asciiToLower "go" "go go" = 1 := by decide
  refine ⟨storeGo_wellFormed, hres, hd, ?_⟩
  intro h
  have h2 := h ⟨"d1", "go", [], 2⟩ (by rw [hres]; simp)
  simp only [hd] at h2
  norm_num at h2

/-- C3, amended: every returned document carries a score equal to the number of
whitespace-separated tokens of the lower-cased query, each counted as often as it
stands in the query, that occur in the lower-cased content of the document; when no
token is repeated in the query this is the number of distinct tokens that occur in
it. The hypothesis states that the keys of the store are distinct, as the keys of a
map are. -/
theorem Retrieve_score_counts_tokens (lower : String → String) (ord : RangeOrder)
    (r : SimpleRetriever) (query : String) (limit : Int) (hnd : (mapKeys r.documents).Nodup) :
    ∀ d ∈ (r.Retrieve lower ord query limit).1,
      d.Score = (tokenHits lower d.Content query : ℚ) ∧
      ((Fields (lower query)).Nodup →
        d.Score = (distinctTokenHits lower d.Content query : ℚ)) := by
  intro d hd
  obtain ⟨p, _, _, rfl⟩ := retrieve_members lower ord r query limit hnd d hd
  refine ⟨rfl, ?_⟩
  intro hnd
  simp only [distinctTokenHits, tokenHits, hnd.dedup]

theorem Retrieve_score_counts_tokens_witness :
    (mapKeys storeGo.documents).Nodup ∧
      ∀ d ∈ (storeGo.Retrieve asciiToLower RangeOrder.asStored "go go" 5).1,
        d.Score = (tokenHits asciiToLower d.Content "go go" : ℚ) ∧
        ((Fields (asciiToLower "go go")).Nodup →
          d.Score = (distinctTokenHits asciiToLower d.Content "go go" : ℚ)) :=
  ⟨storeGo_wellFormed.1,
    Retrieve_score_counts_tokens asciiToLower RangeOrder.asStored storeGo "go go" 5
      storeGo_wellFormed.1⟩

/-- C4: on a well-formed store `Retrieve` returns exactly `min(L, P)` documents, `L`
being the limit when it is positive and 5 otherwise and `P` the number of stored
documents with a positive score; every returned document has the id and content of a
stored document and a score of at least 1, no stored document without a matching token
is returned, and no id is returned twice. For a store of two documents, one containing
`concurrency` and one containing neither token of `go concurrency`, the query
`go concurrency` with limit 5 returns exactly one document. -/
theorem Retrieve_returns_capped_matches (lower : String → String) (ord : RangeOrder)
    (r : SimpleRetriever) (query : String) (limit : Int) (hwf : r.WellFormed) :
    (((r.Retrieve lower ord query limit).1.length : ℕ) : Int)
        = min (effectiveLimit limit) ((matchingDocuments lower r query).length : Int) ∧
    (∀ d ∈ (r.Retrieve lower ord query limit).1,
        (∃ p ∈ r.documents, d.ID = p.2.ID ∧ d.Content = p.2.Content) ∧ 1 ≤ d.Score) ∧
    (∀ p ∈ r.documents, p ∉ matchingDocuments lower r query →
        ∀ d ∈ (r.Retrieve lower ord query limit).1, d.ID ≠ p.2.ID) ∧
    ((r.Retrieve lower ord query limit).1.map Document.ID).Nodup ∧
    (∀ a b : Document, r.documents = [(a.ID, a), (b.ID, b)] →
        Fields (lower "go concurrency") = ["go", "concurrency"] →
        Contains (lower a.Content) "concurrency" = true →
        Contains (lower b.Content) "go" = false →
        Contains (lower b.Content) "concurrency" = false →
        ∃ d, (r.Retrieve lower ord "go concurrency" 5).1 = [d] ∧ d.ID = a.ID ∧
          1 ≤ d.Score) := by
  refine ⟨retrieve_length lower ord r query limit hwf.1, ?_, ?_,
    retrieve_ids_nodup lower ord r query limit hwf, ?_⟩
  · intro d hd
    obtain ⟨p, hp, hpos, rfl⟩ := retrieve_members lower ord r query limit hwf.1 d hd
    refine ⟨⟨p, hp, rfl, rfl⟩, ?_⟩
    show (1 : ℚ) ≤ (tokenHits lower p.2.Content query : ℚ)
    exact_mod_cast hpos
  · intro p hp hnot d hd hid
    obtain ⟨q, hq, hpos, rfl⟩ := retrieve_members lower ord r query limit hwf.1 d hd
    have hkey : q.1 = p.1 := by
      rw [← hwf.2 q hq, ← hwf.2 p hp]
      exact hid
    have hqp := entry_eq_of_key_eq r.documents hwf.1 q p hq hp hkey
    apply hnot
    rw [← hqp]
    simp only [matchingDocuments, List.mem_filter, decide_eq_true_eq]
    exact ⟨hq, hpos⟩
  · intro a b hdocs hF ha hb1 hb2
    have hta : 0 < tokenHits lower a.Content "go concurrency" := by
      simp [tokenHits, hF, ha, List.countP_cons]
    have htb : tokenHits lower b.Content "go concurrency" = 0 := by
      simp [tokenHits, hF, hb1, hb2, List.countP_cons]
    have hlen := retrieve_length lower ord r "go concurrency" 5 hwf.1
    have hP : (matchingDocuments lower r "go concurrency").length = 1 := by
      simp [matchingDocuments, hdocs, List.filter_cons, hta, htb]
    have h5 : effectiveLimit 5 = 5 := by decide
    rw [hP, h5] at hlen
    have hlen1 : (r.Retrieve lower ord "go concurrency" 5).1.length = 1 := by
      have : min (5 : Int) ((1 : ℕ) : Int) = 1 := by decide
      rw [this] at hlen
      exact_mod_cast hlen
    obtain ⟨d, hd⟩ := List.length_eq_one.1 hlen1
    refine ⟨d, hd, ?_⟩
    obtain ⟨p, hp, hpos, hdp⟩ :=
      retrieve_members lower ord r "go concurrency" 5 hwf.1 d (by rw [hd]; simp)
    rw [hdocs] at hp
    simp only [List.mem_cons, List.mem_singleton, List.not_mem_nil, or_false] at hp
    rcases hp with rfl | rfl
    · subst hdp
      refine ⟨rfl, ?_⟩
      show (1 : ℚ) ≤ (tokenHits lower a.Content "go concurrency" : ℚ)
      exact_mod_cast hpos
    · simp only at hpos
      omega

theorem Retrieve_returns_capped_matches_witness :
    storeTwo.WellFormed ∧
      ∃ d, (storeTwo.Retrieve asciiToLower RangeOrder.reversed "go concurrency" 5).1 = [d] ∧
        d.ID = "doc1" ∧ 1 ≤ d.Score :=
  ⟨storeTwo_wellFormed,
    (Retrieve_returns_capped_matches asciiToLower RangeOrder.reversed storeTwo
      "go concurrency" 5 storeTwo_wellFormed).2.2.2.2
      ⟨"doc1", "Go concurrency patterns", [], 0⟩ ⟨"doc2", "Rust ownership", [], 0⟩
      rfl (by decide) (by decide) (by decide) (by decide)⟩

theorem buildContextLoop_eq (fmt2 : ℚ → String) (docs : List Document) :
    ∀ (i : ℕ) (acc : String),
      RAGEngine.buildContextLoop fmt2 i docs acc = acc ++ contextBlocksFrom fmt2 (i + 1) docs := by
  induction docs with
  | nil =>
    intro i acc
    simp only [RAGEngine.buildContextLoop, contextBlocksFrom]
    exact (String.append_empty acc).symm
  | cons d ds ih =>
    intro i acc
    rw [RAGEngine.buildContextLoop, ih]
    simp only [contextBlocksFrom, contextBlock, String.append_assoc]

theorem contextBlocksFrom_contains (fmt2 : ℚ → String) (docs : List Document) :
    ∀ (k : ℕ) (d : Document), d ∈ docs →
      ∃ A B : String, contextBlocksFrom fmt2 k docs = A ++ d.Content ++ B := by
  induction docs with
  | nil => intro k d hd; simp at hd
  | cons x ds ih =>
    intro k d hd
    rcases List.mem_cons.1 hd with rfl | hmem
    · refine ⟨"文档 " ++ toString k ++ " (相关度: " ++ fmt2 d.Score ++ "):\n",
        "\n\n" ++ contextBlocksFrom fmt2 (k + 1) ds, ?_⟩
      simp only [contextBlocksFrom, contextBlock, String.append_assoc]
    · obtain ⟨A, B, hAB⟩ := ih (k + 1) d hmem
      refine ⟨contextBlock fmt2 k x ++ A, B, ?_⟩
      simp only [contextBlocksFrom, hAB, String.append_assoc]

theorem query_of_retrieved {Ctx : Type} (fmt2 : ℚ → String) (e : RAGEngine Ctx) (ctx : Ctx)
    (query : String) (limit : Int) (docs : List Document)
    (hret : e.retriever.Retrieve ctx query limit = (docs, none)) (hne : docs ≠ []) :
    e.Query fmt2 ctx query limit = (expectedAnswer fmt2 query docs, none) := by
  have hlen : ¬ docs.length = 0 := fun h => hne (List.length_eq_zero.1 h)
  simp only [RAGEngine.Query, hret, hlen, if_false, RAGEngine.buildContext,
    buildContextLoop_eq, expectedAnswer, instructionPreamble]
  congr 1

theorem formatF2_whole (k : ℕ) : formatF2 (k : ℚ) = toString k ++ ".00" := by
  have h1 : k * 100 % 10 = 0 := by omega
  have h2 : ¬ ((k : ℤ) < 0) := by omega
  simp only [formatF2, nearestHundredths, Rat.num_natCast, Rat.den_natCast, Int.natAbs_ofNat,
    Nat.mod_one, Nat.div_one, Nat.mul_zero, Nat.zero_lt_one, if_true, h2, if_false,
    Nat.mul_div_cancel k (by norm_num : 0 < 100), Nat.mul_mod_left, h1, Nat.zero_div]
  rw [String.append_assoc, String.append_assoc]
  rfl

theorem abs_mul_hundred (q : ℚ) :
    |q| * 100 = ((q.num.natAbs * 100 : ℕ) : ℚ) / q.den := by
  have h1 : |q| = (q.num.natAbs : ℚ) / q.den := by
    conv_lhs => rw [← Rat.num_div_den q]
    rw [abs_div, Nat.abs_cast, Nat.cast_natAbs, Int.cast_abs]
  rw [h1]
  push_cast
  ring

theorem rounded_quotient_near (a d : ℕ) (hd : 0 < d) :
    |((a : ℚ) / d - ((if 2 * (a % d) < d then a / d
        else if d < 2 * (a % d) then a / d + 1
        else if a / d % 2 = 0 then a / d else a / d + 1 : ℕ) : ℚ))| ≤ 1 / 2 := by
  have hdq : (0 : ℚ) < d := by exact_mod_cast hd
  have hdiv := Nat.div_add_mod a d
  have hlt := Nat.mod_lt a hd
  have ha : (a : ℚ) = d * (a / d : ℕ) + (a % d : ℕ) := by exact_mod_cast hdiv.symm
  generalize a / d = f at *
  generalize a % d = r at *
  have hquot : (a : ℚ) / d = f + r / d := by
    rw [ha]; field_simp; ring
  have hr : (r : ℚ) < d := by exact_mod_cast hlt
  have hr0 : (0 : ℚ) ≤ r := Nat.cast_nonneg r
  have hrd0 : (0 : ℚ) ≤ r / d := div_nonneg hr0 hdq.le
  have hrd1 : (r : ℚ) / d < 1 := (div_lt_one hdq).2 hr
  rw [hquot, abs_le]
  split_ifs with h1 h2 h3
  · have : (2 : ℚ) * r < d := by exact_mod_cast h1
    have h5 : (r : ℚ) / d < 1 / 2 := by
      rw [div_lt_iff₀ hdq]; linarith
    constructor <;> linarith
  · have : (d : ℚ) < 2 * r := by exact_mod_cast h2
    have h5 : (1 : ℚ) / 2 < r / d := by
      rw [lt_div_iff₀ hdq]; linarith
    push_cast
    constructor <;> linarith
  · have h6 : 2 * r = d := by omega
    have h7 : (2 : ℚ) * r = d := by exact_mod_cast h6
    have h5 : (r : ℚ) / d = 1 / 2 := by
      rw [div_eq_iff hdq.ne']; linarith
    constructor <;> linarith
  · have h6 : 2 * r = d := by omega
    have h7 : (2 : ℚ) * r = d := by exact_mod_cast h6
    have h5 : (r : ℚ) / d = 1 / 2 := by
      rw [div_eq_iff hdq.ne']; linarith
    push_cast
    constructor <;> linarith

theorem nearestHundredths_near (q : ℚ) :
    |(|q| * 100 - (nearestHundredths q : ℚ))| ≤ 1 / 2 := by
  rw [abs_mul_hundred]
  exact rounded_quotient_near (q.num.natAbs * 100) q.den q.den_pos

theorem formatF2_shape (q : ℚ) :
    formatF2 q = (if q < 0 then "-" else "") ++ toString (nearestHundredths q / 100) ++ "."
      ++ String.mk [Nat.digitChar (nearestHundredths q % 100 / 10),
          Nat.digitChar (nearestHundredths q % 10)] := by
  by_cases h : q < 0
  · have hn : q.num < 0 := Rat.num_neg.2 h
    simp only [formatF2, h, hn, if_true]
  · have hn : ¬ q.num < 0 := fun hh => h (Rat.num_neg.1 hh)
    simp only [formatF2, h, hn, if_false]

theorem formatF2_samples :
    formatF2 2 = "2.00" ∧ formatF2 (1 / 2) = "0.50" ∧ formatF2 (1 / 8) = "0.12" ∧
      formatF2 (3 / 8) = "0.38" ∧ formatF2 (-1 / 3) = "-0.33" ∧ formatF2 (199 / 100) = "1.99" := by
  have h1 : (1 / 2 : ℚ) = mkRat 1 2 := by norm_num [Rat.mkRat_eq_div]
  have h2 : (1 / 8 : ℚ) = mkRat 1 8 := by norm_num [Rat.mkRat_eq_div]
  have h3 : (3 / 8 : ℚ) = mkRat 3 8 := by norm_num [Rat.mkRat_eq_div]
  have h4 : (-1 / 3 : ℚ) = mkRat (-1) 3 := by norm_num [Rat.mkRat_eq_div]
  have h5 : (199 / 100 : ℚ) = mkRat 199 100 := by norm_num [Rat.mkRat_eq_div]
  rw [h1, h2, h3, h4, h5]
  decide

theorem expectedAnswer_fixed :
    expectedAnswer formatF2 "What is Go?" [⟨"a", "alpha", [], 2⟩, ⟨"b", "beta", [], 1 / 2⟩]
      = "基于以下上下文信息回答问题：\n\n上下文：\n文档 1 (相关度: 2.00):\nalpha\n\n文档 2 (相关度: 0.50):\nbeta\n\n\n\n问题：What is Go?" := by
  simp only [expectedAnswer, contextBlocksFrom, contextBlock, formatF2_samples.1,
    formatF2_samples.2.1]
  decide

/-- C8: when `Retrieve` succeeds with a non-empty list, `Query` returns a nil error and
the string made of the instruction preamble, one block per retrieved document in
retrieval order (1-based index, score with two decimals, content, blank line), then
the question line with the original query; the result contains the content of every
retrieved document and ends with the query, and it is the same for every engine,
context and limit that retrieve this list for this query. The score is written by
`formatF2`, the rendering of `%.2f`: sign, integer part, point and two digits of the
hundredths nearest to the score, so `2` reads `2.00`, `1/2` reads `0.50`, the tie `1/8`
reads `0.12`, and a whole score `k` reads `k.00`. -/
theorem Query_formats_retrieved {Ctx : Type} (e : RAGEngine Ctx)
    (ctx : Ctx) (query : String) (limit : Int) (docs : List Document)
    (hret : e.retriever.Retrieve ctx query limit = (docs, none)) (hne : docs ≠ []) :
    e.Query formatF2 ctx query limit = (expectedAnswer formatF2 query docs, none) ∧
    (∀ d ∈ docs, ∃ A B : String,
      (e.Query formatF2 ctx query limit).1 = A ++ d.Content ++ B) ∧
    (∃ A : String, (e.Query formatF2 ctx query limit).1 = A ++ query) ∧
    (∀ (e2 : RAGEngine Ctx) (ctx2 : Ctx) (limit2 : Int),
      e2.retriever.Retrieve ctx2 query limit2 = (docs, none) →
      e2.Query formatF2 ctx2 query limit2 = e.Query formatF2 ctx query limit) ∧
    (∀ q : ℚ, |(|q| * 100 - (nearestHundredths q : ℚ))| ≤ 1 / 2 ∧
      formatF2 q = (if q < 0 then "-" else "") ++ toString (nearestHundredths q / 100) ++ "."
        ++ String.mk [Nat.digitChar (nearestHundredths q % 100 / 10),
            Nat.digitChar (nearestHundredths q % 10)]) ∧
    (∀ k : ℕ, formatF2 (k : ℚ) = toString k ++ ".00") ∧
    (formatF2 2 = "2.00" ∧ formatF2 (1 / 2) = "0.50" ∧ formatF2 (1 / 8) = "0.12" ∧
      formatF2 (3 / 8) = "0.38" ∧ formatF2 (-1 / 3) = "-0.33" ∧
      formatF2 (199 / 100) = "1.99") ∧
    expectedAnswer formatF2 "What is Go?" [⟨"a", "alpha", [], 2⟩, ⟨"b", "beta", [], 1 / 2⟩]
      = "基于以下上下文信息回答问题：\n\n上下文：\n文档 1 (相关度: 2.00):\nalpha\n\n文档 2 (相关度: 0.50):\nbeta\n\n\n\n问题：What is Go?" := by
  have hq := query_of_retrieved formatF2 e ctx query limit docs hret hne
  refine ⟨hq, ?_, ?_, ?_, fun q => ⟨nearestHundredths_near q, formatF2_shape q⟩,
    formatF2_whole, formatF2_samples, expectedAnswer_fixed⟩
  · intro d hd
    obtain ⟨A, B, hAB⟩ := contextBlocksFrom_contains formatF2 docs 1 d hd
    refine ⟨instructionPreamble ++ A, B ++ "\n\n问题：" ++ query, ?_⟩
    rw [hq]
    simp only [expectedAnswer, hAB, String.append_assoc]
  · refine ⟨instructionPreamble ++ contextBlocksFrom formatF2 1 docs ++ "\n\n问题：", ?_⟩
    rw [hq]
    simp only [expectedAnswer]
  · intro e2 ctx2 limit2 h2
    rw [hq, query_of_retrieved formatF2 e2 ctx2 query limit2 docs h2 hne]

theorem Query_formats_retrieved_witness :
    (NewRAGEngine fixedRetriever).Query formatF2 () "What is Go?" 3
      = ("基于以下上下文信息回答问题：\n\n上下文：\n文档 1 (相关度: 2.00):\nalpha\n\n文档 2 (相关度: 0.50):\nbeta\n\n\n\n问题：What is Go?",
          none) :=
  ((Query_formats_retrieved (NewRAGEngine fixedRetriever) () "What is Go?" 3
    [⟨"a", "alpha", [], 2⟩, ⟨"b", "beta", [], 1 / 2⟩] rfl (by simp)).1).trans
    (congrArg (fun t => (t, (none : Option GoError))) expectedAnswer_fixed)

/-- C9: whenever the retriever returns no document (and a nil error), `Query` returns
a nil error and the fixed fallback text, whatever the query and the limit; this is so
for every query against an empty `SimpleRetriever`. -/
theorem Query_fallback {Ctx : Type} (fmt2 : ℚ → String) (e : RAGEngine Ctx) (ctx : Ctx)
    (query : String) (limit : Int)
    (hret : e.retriever.Retrieve ctx query limit = ([], none)) :
    e.Query fmt2 ctx query limit = (noDocumentsAnswer, none) ∧
    ∀ (lower : String → String) (ord : RangeOrder) (query2 : String) (limit2 : Int),
      (NewRAGEngine (NewSimpleRetriever.toRetriever lower ord : Retriever Ctx)).Query
        fmt2 ctx query2 limit2 = (noDocumentsAnswer, none) := by
  constructor
  · simp only [RAGEngine.Query, hret, List.length_nil, if_true, noDocumentsAnswer]
  · intro lower ord query2 limit2
    have hnil : ord.order ([] : List (String × Document)) = [] :=
      List.perm_nil.1 (ord.perm _)
    have hnil2 : ord.order ([] : List (String × ℚ)) = [] := List.perm_nil.1 (ord.perm _)
    simp only [RAGEngine.Query, NewRAGEngine, SimpleRetriever.toRetriever,
      SimpleRetriever.Retrieve, NewSimpleRetriever, hnil, SimpleRetriever.scoresLoop, hnil2,
      SimpleRetriever.resultsLoop, List.length_nil, if_true, noDocumentsAnswer]

theorem Query_fallback_witness :
    (NewRAGEngine (NewSimpleRetriever.toRetriever asciiToLower RangeOrder.asStored
        : Retriever Unit)).Query formatF2 () "anything" 0 = (noDocumentsAnswer, none) :=
  (Query_fallback formatF2
    (NewRAGEngine (NewSimpleRetriever.toRetriever asciiToLower RangeOrder.asStored)) ()
    "anything" 0 (by decide)).1

/-! ## Theorems: prompt.go -/

/-- C10: `AddTemplate` returns an error exactly when the template reference is nil,
its name is empty or its content is empty, and whenever it returns an error the
template map of the engine is unchanged. -/
theorem AddTemplate_error_iff (e : PromptEngine) (tmpl : Option Template) :
    ((e.AddTemplate tmpl).2 ≠ none ↔
      (tmpl = none ∨ ∃ t, tmpl = some t ∧ (t.Name = "" ∨ t.Content = ""))) ∧
    ((e.AddTemplate tmpl).2 ≠ none → (e.AddTemplate tmpl).1.templates = e.templates) := by
  cases tmpl with
  | none => simp [PromptEngine.AddTemplate]
  | some t =>
    by_cases hn : t.Name = ""
    · simp [PromptEngine.AddTemplate, hn]
    · by_cases hc : t.Content = ""
      · simp [PromptEngine.AddTemplate, hn, hc]
      · simp [PromptEngine.AddTemplate, hn, hc]

theorem AddTemplate_error_iff_witness :
    (NewPromptEngine.AddTemplate (some ⟨"t", "", "1.0", [], []⟩)).2 ≠ none ∧
      (NewPromptEngine.AddTemplate (some ⟨"t", "", "1.0", [], []⟩)).1.templates
        = NewPromptEngine.templates :=
  ⟨by decide,
    (AddTemplate_error_iff NewPromptEngine (some ⟨"t", "", "1.0", [], []⟩)).2 (by decide)⟩

theorem startsWith_iff (pat s : List Char) :
    startsWith pat s = true ↔ ∃ t, s = pat ++ t := by
  induction pat generalizing s with
  | nil => simp [startsWith]
  | cons p ps ih =>
    cases s with
    | nil => simp [startsWith]
    | cons c cs =>
      simp only [startsWith, Bool.and_eq_true, decide_eq_true_eq, ih, List.cons_append,
        List.cons.injEq]
      constructor
      · rintro ⟨rfl, t, rfl⟩; exact ⟨t, rfl, rfl⟩
      · rintro ⟨t, rfl, rfl⟩; exact ⟨rfl, t, rfl⟩

theorem takeWhile_run (p : Char → Bool) (w t : List Char) (d : Char)
    (hw : ∀ c ∈ w, p c = true) (hd : p d = false) :
    (w ++ d :: t).takeWhile p = w ∧ (w ++ d :: t).dropWhile p = d :: t := by
  induction w with
  | nil => simp [List.takeWhile, List.dropWhile, hd]
  | cons a w ih =>
    have ha := hw a (List.mem_cons_self _ _)
    have ih2 := ih (fun c hc => hw c (List.mem_cons_of_mem _ hc))
    simp [List.takeWhile, List.dropWhile, ha, ih2.1, ih2.2]

theorem matchPlaceholder_eq_some (s w : List Char) :
    matchPlaceholder s = some w ↔ IsWord w ∧ startsWith (placeholderOf w) s = true := by
  constructor
  · intro h
    simp only [matchPlaceholder] at h
    split_ifs at h with h1 h2
    · obtain ⟨t, ht⟩ := (startsWith_iff _ _).1 h1
      obtain ⟨t2, ht2⟩ := (startsWith_iff _ _).1 h2.2
      have hbody : s.drop 3 = t := by rw [ht]; rfl
      rw [hbody] at h h2 ht2
      have hw : List.takeWhile isWordChar t = w := Option.some.inj h
      have hsplit := List.takeWhile_append_dropWhile isWordChar t
      rw [hw, ht2] at hsplit
      refine ⟨⟨?_, ?_⟩, ?_⟩
      · rw [← hw]; exact h2.1
      · intro c hc
        rw [← hw] at hc
        exact (List.mem_takeWhile_imp hc)
      · rw [startsWith_iff]
        refine ⟨t2, ?_⟩
        rw [ht, ← hsplit]
        simp [placeholderOf, List.append_assoc]
  · rintro ⟨⟨hne, hall⟩, hs⟩
    obtain ⟨t, ht⟩ := (startsWith_iff _ _).1 hs
    have hs3 : startsWith "\x7b\x7b.".data s = true := by
      rw [startsWith_iff]
      exact ⟨w ++ "\x7d\x7d".data ++ t, by rw [ht]; simp [placeholderOf, List.append_assoc]⟩
    have hbody : s.drop 3 = w ++ '\x7d' :: ('\x7d' :: t) := by
      rw [ht]; simp [placeholderOf]
    have hrun := takeWhile_run isWordChar w ('\x7d' :: t) '\x7d' hall (by decide)
    simp only [matchPlaceholder, hs3, if_true, hbody, hrun.1, hrun.2]
    have h2 : startsWith "\x7d\x7d".data ('\x7d' :: '\x7d' :: t) = true := by
      rw [startsWith_iff]; exact ⟨t, rfl⟩
    simp [hne, h2]

theorem matchPlaceholder_nil : matchPlaceholder [] = none := by
  simp [matchPlaceholder, startsWith]

theorem matchPlaceholder_none_of_head (a : Char) (t : List Char) (h : a ≠ '\x7b') :
    matchPlaceholder (a :: t) = none := by
  have hs : startsWith "\x7b\x7b.".data (a :: t) = false := by
    simp [startsWith, Ne.symm h]
  simp [matchPlaceholder, hs]

theorem matchPlaceholder_none_of_second (a b : Char) (t : List Char) (h : b ≠ '\x7b') :
    matchPlaceholder (a :: b :: t) = none := by
  have hs : startsWith "\x7b\x7b.".data (a :: b :: t) = false := by
    simp [startsWith, Ne.symm h]
  simp [matchPlaceholder, hs]

theorem matchPlaceholder_none_in_run (u t : List Char) (hu : ∀ a ∈ u, a ≠ '\x7b') :
    ∀ j, j < u.length → matchPlaceholder ((u ++ t).drop j) = none := by
  induction u with
  | nil => intro j hj; simp at hj
  | cons a u ih =>
    intro j hj
    cases j with
    | zero =>
      exact matchPlaceholder_none_of_head a _ (hu a (List.mem_cons_self _ _))
    | succ j =>
      simp only [List.cons_append, List.drop_succ_cons]
      exact ih (fun x hx => hu x (List.mem_cons_of_mem _ hx)) j
        (by simp only [List.length_cons] at hj; omega)

theorem wordChar_ne_brace (a : Char) (h : isWordChar a = true) : a ≠ '\x7b' := by
  intro ha
  rw [ha] at h
  exact absurd h (by decide)

theorem no_match_inside (c : Char) (cs w : List Char)
    (h : matchPlaceholder (c :: cs) = some w) :
    ∀ i, i < w.length + 4 → matchPlaceholder (cs.drop i) = none := by
  obtain ⟨⟨_, hall⟩, hs⟩ := (matchPlaceholder_eq_some _ _).1 h
  obtain ⟨t, ht⟩ := (startsWith_iff _ _).1 hs
  have hcs : cs = '\x7b' :: (('.' :: (w ++ ['\x7d', '\x7d'])) ++ t) := by
    have h2 : c :: cs = '\x7b' :: '\x7b' :: (('.' :: (w ++ ['\x7d', '\x7d'])) ++ t) := by
      rw [ht]; simp [placeholderOf]
    exact (List.cons.inj h2).2
  intro i hi
  cases i with
  | zero =>
    rw [hcs]
    exact matchPlaceholder_none_of_second _ _ _ (by decide)
  | succ j =>
    rw [hcs, List.drop_succ_cons]
    apply matchPlaceholder_none_in_run
    · intro a ha
      simp only [List.mem_cons, List.mem_append, List.mem_singleton, List.not_mem_nil,
        or_false] at ha
      rcases ha with rfl | ha | rfl | rfl
      · decide
      · exact wordChar_ne_brace a (hall a ha)
      · decide
      · decide
    · simp only [List.length_cons, List.length_append, List.length_nil]
      omega

theorem findAllLoop_eq (s : List Char) :
    ∀ k, (∀ i, i < k → matchPlaceholder (s.drop i) = none) →
      findAllLoop k s = (capturesFrom s).map
        (fun w => [String.mk ("\x7b\x7b.".data ++ w ++ "\x7d\x7d".data), String.mk w]) := by
  induction s with
  | nil => intro k _; cases k <;> simp [findAllLoop, capturesFrom]
  | cons c cs ih =>
    intro k hk
    cases k with
    | zero =>
      rw [findAllLoop, capturesFrom]
      cases hm : matchPlaceholder (c :: cs) with
      | none => exact ih 0 (fun i hi => absurd hi (Nat.not_lt_zero i))
      | some w =>
        simp only [List.map_cons]
        rw [ih (w.length + 4) (no_match_inside c cs w hm)]
    | succ k =>
      have h0 : matchPlaceholder (c :: cs) = none := by
        simpa using hk 0 (Nat.succ_pos k)
      rw [findAllLoop, capturesFrom, h0]
      exact ih k (fun i hi => by simpa using hk (i + 1) (Nat.succ_lt_succ hi))

theorem mapGet_mapSet {V : Type} (m : List (String × V)) (k : String) (v : V) (k2 : String) :
    mapGet (mapSet m k v) k2 = if k = k2 then some v else mapGet m k2 := by
  induction m with
  | nil => simp [mapSet, mapGet]
  | cons p m ih =>
    obtain ⟨a, b⟩ := p
    by_cases hak : a = k
    · subst hak
      simp only [mapSet, if_true, mapGet]
      by_cases ha2 : a = k2 <;> simp [ha2]
    · simp only [mapSet, hak, if_false, mapGet, ih]
      by_cases ha2 : a = k2
      · subst ha2
        have : ¬ k = a := fun h => hak h.symm
        simp [this]
      · simp [ha2]

theorem extractLoop_eq (ws : List (List Char)) :
    ∀ (vars : List String) (seen : List (String × Bool)),
      (∀ v, (mapGet seen v).getD false = true ↔ v ∈ vars) →
      extractLoop (ws.map
          (fun w => [String.mk ("\x7b\x7b.".data ++ w ++ "\x7d\x7d".data), String.mk w]))
          vars seen
        = collectNew (ws.map String.mk) vars := by
  induction ws with
  | nil => intro vars seen _; rfl
  | cons w ws ih =>
    intro vars seen hinv
    simp only [List.map_cons, extractLoop, collectNew, List.length_cons, List.length_nil]
    have hget : [String.mk ("\x7b\x7b.".data ++ w ++ "\x7d\x7d".data), String.mk w].getD 1 ""
        = String.mk w := rfl
    rw [hget]
    by_cases hmem : String.mk w ∈ vars
    · have hseen : (mapGet seen (String.mk w)).getD false = true := (hinv _).2 hmem
      simp only [hseen, hmem, if_true]
      simpa using ih vars seen hinv
    · have hseen : (mapGet seen (String.mk w)).getD false = false := by
        cases hb : (mapGet seen (String.mk w)).getD false with
        | false => rfl
        | true => exact absurd ((hinv _).1 hb) hmem
      simp only [hseen, hmem, if_false]
      have hinv2 : ∀ v, (mapGet (mapSet seen (String.mk w) true) v).getD false = true
          ↔ v ∈ vars ++ [String.mk w] := by
        intro v
        rw [mapGet_mapSet]
        by_cases hv : String.mk w = v
        · subst hv; simp
        · have hv2 : ¬ v = String.mk w := fun h => hv h.symm
          simp [hv, hv2, hinv v]
      simpa using ih _ _ hinv2

theorem occursIn_placeholder_nil (x : List Char) : occursIn (placeholderOf x) [] = false := by
  simp [occursIn, placeholderOf, startsWith]

theorem firstIndex_shift (pat : List Char) (c : Char) (cs : List Char)
    (h : startsWith pat (c :: cs) = false) :
    firstIndex pat (c :: cs) = firstIndex pat cs + 1 := by
  simp [firstIndex, h]

theorem collectNew_captures (s : List Char) :
    ∀ vars : List String, vars.Nodup →
      ∃ new : List String,
        collectNew ((capturesFrom s).map String.mk) vars = vars ++ new ∧
        (vars ++ new).Nodup ∧
        (∀ x : String, x ∈ new ↔
          x ∉ vars ∧ IsWord x.data ∧ occursIn (placeholderOf x.data) s = true) ∧
        new.Pairwise (fun x y =>
          firstIndex (placeholderOf x.data) s < firstIndex (placeholderOf y.data) s) := by
  induction s with
  | nil =>
    intro vars hnd
    refine ⟨[], by simp [capturesFrom, collectNew], by simpa using hnd, ?_, List.Pairwise.nil⟩
    intro x
    simp [occursIn_placeholder_nil]
  | cons c cs ih =>
    intro vars hnd
    cases hm : matchPlaceholder (c :: cs) with
    | none =>
      have hno : ∀ x : String, IsWord x.data →
          startsWith (placeholderOf x.data) (c :: cs) = false := by
        intro x hx
        cases hb : startsWith (placeholderOf x.data) (c :: cs) with
        | false => rfl
        | true =>
          have := (matchPlaceholder_eq_some (c :: cs) x.data).2 ⟨hx, hb⟩
          rw [hm] at this
          exact absurd this (by simp)
      obtain ⟨new, heq, hnd2, hmem, hpw⟩ := ih vars hnd
      refine ⟨new, ?_, hnd2, ?_, ?_⟩
      · simp only [capturesFrom, hm]
        exact heq
      · intro x
        rw [hmem x]
        constructor
        · rintro ⟨h1, h2, h3⟩
          exact ⟨h1, h2, by simp [occursIn, h3]⟩
        · rintro ⟨h1, h2, h3⟩
          refine ⟨h1, h2, ?_⟩
          simpa [occursIn, hno x h2] using h3
      · refine hpw.imp_of_mem ?_
        intro a b ha hb hab
        rw [firstIndex_shift _ c cs (hno a ((hmem a).1 ha).2.1),
          firstIndex_shift _ c cs (hno b ((hmem b).1 hb).2.1)]
        omega
    | some w =>
      obtain ⟨hwWord, hwStart⟩ := (matchPlaceholder_eq_some _ _).1 hm
      have hK : ∀ x : String, IsWord x.data →
          (startsWith (placeholderOf x.data) (c :: cs) = true ↔ x = String.mk w) := by
        intro x hx
        constructor
        · intro hb
          have := (matchPlaceholder_eq_some (c :: cs) x.data).2 ⟨hx, hb⟩
          rw [hm] at this
          have hw : w = x.data := Option.some.inj this
          rw [hw]
        · intro hxw
          rw [hxw]
          exact hwStart
      have hno : ∀ x : String, IsWord x.data → x ≠ String.mk w →
          startsWith (placeholderOf x.data) (c :: cs) = false := by
        intro x hx hne
        cases hb : startsWith (placeholderOf x.data) (c :: cs) with
        | false => rfl
        | true => exact absurd ((hK x hx).1 hb) hne
      by_cases hX : String.mk w ∈ vars
      · obtain ⟨new, heq, hnd2, hmem, hpw⟩ := ih vars hnd
        have hneX : ∀ x, x ∈ new → x ≠ String.mk w := by
          intro x hx hxw
          exact ((hmem x).1 hx).1 (hxw ▸ hX)
        refine ⟨new, ?_, hnd2, ?_, ?_⟩
        · simp only [capturesFrom, hm, List.map_cons, collectNew, hX, if_true]
          exact heq
        · intro x
          rw [hmem x]
          constructor
          · rintro ⟨h1, h2, h3⟩
            exact ⟨h1, h2, by simp [occursIn, h3]⟩
          · rintro ⟨h1, h2, h3⟩
            refine ⟨h1, h2, ?_⟩
            have hne : x ≠ String.mk w := fun hxw => h1 (hxw ▸ hX)
            simpa [occursIn, hno x h2 hne] using h3
        · refine hpw.imp_of_mem ?_
          intro a b ha hb hab
          rw [firstIndex_shift _ c cs (hno a ((hmem a).1 ha).2.1 (hneX a ha)),
            firstIndex_shift _ c cs (hno b ((hmem b).1 hb).2.1 (hneX b hb))]
          omega
      · have hnd1 : (vars ++ [String.mk w]).Nodup := by
          rw [List.nodup_append]
          refine ⟨hnd, List.nodup_singleton _, ?_⟩
          intro a ha hb
          rw [List.mem_singleton] at hb
          exact hX (hb ▸ ha)
        obtain ⟨new, heq, hnd2, hmem, hpw⟩ := ih (vars ++ [String.mk w]) hnd1
        have hneX : ∀ x, x ∈ new → x ≠ String.mk w := by
          intro x hx hxw
          exact ((hmem x).1 hx).1 (by rw [hxw]; simp)
        refine ⟨String.mk w :: new, ?_, ?_, ?_, ?_⟩
        · simp only [capturesFrom, hm, List.map_cons, collectNew, hX, if_false]
          rw [heq]
          simp
        · simpa using hnd2
        · intro x
          rw [List.mem_cons, hmem x]
          constructor
          · rintro (rfl | ⟨h1, h2, h3⟩)
            · exact ⟨hX, hwWord, by simp [occursIn, hwStart]⟩
            · refine ⟨fun hv => h1 (List.mem_append_left _ hv), h2, by simp [occursIn, h3]⟩
          · rintro ⟨h1, h2, h3⟩
            by_cases hxw : x = String.mk w
            · exact Or.inl hxw
            · right
              refine ⟨?_, h2, ?_⟩
              · simp only [List.mem_append, List.mem_singleton, not_or]
                exact ⟨h1, hxw⟩
              · simpa [occursIn, hno x h2 hxw] using h3
        · rw [List.pairwise_cons]
          constructor
          · intro y hy
            have h0 : firstIndex (placeholderOf w) (c :: cs) = 0 := by
              simp [firstIndex, hwStart]
            show firstIndex (placeholderOf w) (c :: cs) < _
            rw [h0, firstIndex_shift _ c cs (hno y ((hmem y).1 hy).2.1 (hneX y hy))]
            omega
          · refine hpw.imp_of_mem ?_
            intro a b ha hb hab
            rw [firstIndex_shift _ c cs (hno a ((hmem a).1 ha).2.1 (hneX a ha)),
              firstIndex_shift _ c cs (hno b ((hmem b).1 hb).2.1 (hneX b hb))]
            omega

theorem extractVariables_eq (content : String) :
    extractVariables content = collectNew ((capturesFrom content.data).map String.mk) [] := by
  unfold extractVariables FindAllStringSubmatch
  rw [findAllLoop_eq content.data 0 (fun i hi => absurd hi (Nat.not_lt_zero i))]
  exact extractLoop_eq _ [] [] (by intro v; simp [mapGet])

/-- C7: the list computed by `extractVariables` holds exactly the identifiers that
occur in the content inside a placeholder, each once, ordered by the position of the
first occurrence of their placeholder; placeholders `a`, `b`, `a` give `[a, b]`; and
`AddTemplate` stores this list in the template it registers. -/
theorem extractVariables_first_occurrences (content : String) :
    (∀ x : String, x ∈ extractVariables content ↔ OccursAsPlaceholder x content) ∧
    (extractVariables content).Nodup ∧
    (extractVariables content).Pairwise (fun x y =>
      firstIndex (placeholderOf x.data) content.data
        < firstIndex (placeholderOf y.data) content.data) ∧
    extractVariables "\x7b\x7b.a\x7d\x7d and \x7b\x7b.b\x7d\x7d, then \x7b\x7b.a\x7d\x7d"
      = ["a", "b"] ∧
    (∀ (e : PromptEngine) (t : Template), t.Name ≠ "" → t.Content ≠ "" →
      ∃ stored, mapGet (e.AddTemplate (some t)).1.templates t.Name = some stored ∧
        stored.Variables = extractVariables t.Content) := by
  obtain ⟨new, heq, hnd, hmem, hpw⟩ := collectNew_captures content.data [] List.nodup_nil
  rw [List.nil_append] at heq hnd
  rw [extractVariables_eq, heq]
  refine ⟨?_, hnd, hpw, by decide, ?_⟩
  · intro x
    rw [hmem x]
    simp [OccursAsPlaceholder]
  · intro e t hn hc
    refine ⟨{ t with Variables := extractVariables t.Content }, ?_, rfl⟩
    simp [PromptEngine.AddTemplate, hn, hc, mapGet_mapSet]

theorem extractVariables_first_occurrences_witness :
    ∃ stored, mapGet (NewPromptEngine.AddTemplate
        (some ⟨"t", "\x7b\x7b.b\x7d\x7d \x7b\x7b.a\x7d\x7d \x7b\x7b.b\x7d\x7d", "1.0", ["zzz"], []⟩)).1.templates
        "t" = some stored ∧
      stored.Variables
        = extractVariables "\x7b\x7b.b\x7d\x7d \x7b\x7b.a\x7d\x7d \x7b\x7b.b\x7d\x7d" :=
  (extractVariables_first_occurrences "").2.2.2.2 NewPromptEngine
    ⟨"t", "\x7b\x7b.b\x7d\x7d \x7b\x7b.a\x7d\x7d \x7b\x7b.b\x7d\x7d", "1.0", ["zzz"], []⟩
    (by decide) (by decide)

theorem parseLoop_skip (name : String) (u : List Char) :
    ∀ (k line : ℕ) (cur R : List Char), u.length = k →
      parseLoop name k line cur (u ++ R) = parseLoop name 0 line cur R := by
  induction u with
  | nil => intro k line cur R hk; simp only [List.length_nil] at hk; subst hk; rfl
  | cons a u ih =>
    intro k line cur R hk
    simp only [List.length_cons] at hk
    subst hk
    rw [List.cons_append, parseLoop]
    exact ih _ line cur R rfl

theorem startsWith_two_take (a b c : Char) (s R : List Char) :
    startsWith [a, b] (c :: (s ++ R)) = startsWith [a, b] (c :: (s ++ R.take 1)) := by
  cases s with
  | nil =>
    cases R with
    | nil => rfl
    | cons r R => simp [startsWith]
  | cons d s => simp [startsWith]

theorem parseLoop_lit (name : String) (s : List Char) :
    ∀ (line : ℕ) (cur R : List Char),
      occursIn "\x7b\x7b".data (s ++ R.take 1) = false →
      ∃ line2, parseLoop name 0 line cur (s ++ R) = parseLoop name 0 line2 (s.reverse ++ cur) R := by
  induction s with
  | nil => intro line cur R _; exact ⟨line, rfl⟩
  | cons c s ih =>
    intro line cur R hocc
    have hpair : startsWith "\x7b\x7b".data (c :: (s ++ R.take 1)) = false ∧
        occursIn "\x7b\x7b".data (s ++ R.take 1) = false := by
      simpa [occursIn] using hocc
    have hstart : startsWith "\x7b\x7b".data (c :: (s ++ R)) = false := by
      rw [← hpair.1]
      exact startsWith_two_take _ _ c s R
    obtain ⟨line2, h2⟩ := ih (if c = '\n' then line + 1 else line) (c :: cur) R hpair.2
    refine ⟨line2, ?_⟩
    rw [List.cons_append, parseLoop, hstart]
    simp only [Bool.false_eq_true, if_false]
    rw [h2]
    simp

theorem executeNodes_flush (data : List (String × Value)) (cur : List Char)
    (nodes : List TemplateNode) (buf : List Char) :
    executeNodes data (flushText cur nodes) buf = executeNodes data nodes (buf ++ cur.reverse) := by
  unfold flushText
  split_ifs with h
  · subst h; simp
  · rfl

theorem flushText_append (cur : List Char) (A B : List TemplateNode) :
    flushText cur A ++ B = flushText cur (A ++ B) := by
  unfold flushText
  split_ifs <;> rfl

theorem parse_segments (name : String) (data : List (String × Value)) (σ : String → String)
    (segs : List Segment) :
    Fits segs → (∀ y ∈ holes segs, printValue (mapGet data y) = some (σ y)) →
      ∀ (line : ℕ) (cur : List Char),
      ∃ nodes, parseLoop name 0 line cur (sourceText segs) = .ok nodes ∧
        ∀ buf, executeNodes data nodes buf
          = .ok (buf ++ cur.reverse ++ filledText σ segs) := by
  induction segs with
  | nil =>
    intro _ _ line cur
    refine ⟨flushText cur [], by cases line <;> rfl, ?_⟩
    intro buf
    rw [executeNodes_flush]
    simp [executeNodes, filledText]
  | cons seg segs ih =>
    intro hfit hσ line cur
    cases seg with
    | lit t =>
      obtain ⟨hocc, hrest⟩ := hfit
      obtain ⟨line2, hl⟩ := parseLoop_lit name t.data line cur (sourceText segs) hocc
      obtain ⟨nodes, hparse, hexec⟩ := ih hrest (fun y hy => hσ y hy) line2
        (t.data.reverse ++ cur)
      refine ⟨nodes, ?_, ?_⟩
      · rw [sourceText, hl, hparse]
      · intro buf
        rw [hexec buf]
        simp [filledText, List.append_assoc]
    | hole x =>
      obtain ⟨⟨hword, hstart⟩, hrest⟩ := hfit
      obtain ⟨nodes, hparse, hexec⟩ := ih hrest
        (fun y hy => hσ y (List.mem_cons_of_mem _ hy)) line []
      have hx : printValue (mapGet data x) = some (σ x) := hσ x (List.mem_cons_self _ _)
      have hsrc : sourceText (Segment.hole x :: segs)
          = '\x7b' :: (('\x7b' :: '.' :: (x.data ++ ['\x7d', '\x7d'])) ++ sourceText segs) := by
        simp [sourceText, placeholderOf]
      have hmatch : matchPlaceholder (sourceText (Segment.hole x :: segs)) = some x.data := by
        rw [matchPlaceholder_eq_some]
        refine ⟨hword, ?_⟩
        rw [startsWith_iff]
        exact ⟨sourceText segs, rfl⟩
      have hdelim : startsWith "\x7b\x7b".data (sourceText (Segment.hole x :: segs)) = true := by
        rw [hsrc]; rfl
      refine ⟨flushText cur [.field x] ++ nodes, ?_, ?_⟩
      · rw [hsrc] at hmatch hdelim ⊢
        rw [parseLoop, hdelim]
        simp only [if_true, hmatch, hstart]
        rw [parseLoop_skip name _ _ line [] (sourceText segs)
          (by simp only [List.length_cons, List.length_append, List.length_nil]), hparse]
        rfl
      · intro buf
        rw [flushText_append, executeNodes_flush, List.singleton_append, executeNodes]
        simp only [hx]
        rw [hexec]
        simp [filledText, List.append_assoc]

theorem render_segments (e : PromptEngine) (name : String) (tmpl : Template)
    (segs : List Segment) (data : List (String × Value)) (σ : String → String)
    (hreg : mapGet e.templates name = some tmpl)
    (hcontent : tmpl.Content = composeContent segs) (hfits : Fits segs)
    (hσ : ∀ y ∈ holes segs, printValue (mapGet data y) = some (σ y)) :
    e.Render name data = some (fillWith σ segs, none) := by
  obtain ⟨nodes, hparse, hexec⟩ := parse_segments tmpl.Name data σ segs hfits hσ 1 []
  have hp : templateParse tmpl.Name tmpl.Content = .ok nodes := by
    rw [templateParse, hcontent]
    exact hparse
  simp only [PromptEngine.Render, PromptEngine.GetTemplate, hreg, hp, hexec, fillWith]
  simp

theorem printValue_modelled (v : Option Value)
    (h : ∀ shown, v ≠ some (.other shown)) : printValue v ≠ none := by
  cases v with
  | none => simp [printValue]
  | some w =>
    cases w with
    | nil => simp [printValue]
    | str t => simp [printValue]
    | int n => simp [printValue]
    | other shown => exact absurd rfl (h shown)

theorem filledText_congr (σ τ : String → String) (segs : List Segment)
    (h : ∀ x ∈ holes segs, σ x = τ x) : filledText σ segs = filledText τ segs := by
  induction segs with
  | nil => rfl
  | cons seg segs ih =>
    cases seg with
    | lit t => simp only [filledText]; rw [ih (fun x hx => h x hx)]
    | hole y =>
      simp only [filledText]
      rw [h y (List.mem_cons_self _ _), ih (fun x hx => h x (List.mem_cons_of_mem _ hx))]

/-- C5, as stated, fails: the engine holds the predefined template `qa`, whose content
has the placeholder `question`; rendered with bindings that have no entry for
`question` it returns a nil error and a string in which the placeholder reads
`<no value>`. -/
theorem Render_unbound_counterexample :
    (∃ tmpl, mapGet qaEngine.templates "qa" = some tmpl ∧
      tmpl.Content = composeContent
        [.lit "请回答以下问题：\n\n", .hole "question", .lit "\n\n请提供详细、准确的答案。"]) ∧
    mapGet ([] : List (String × Value)) "question" = none ∧
    qaEngine.Render "qa" []
      = some ("请回答以下问题：\n\n<no value>\n\n请提供详细、准确的答案。", none) :=
  ⟨⟨⟨"qa", "请回答以下问题：\n\n\x7b\x7b.question\x7d\x7d\n\n请提供详细、准确的答案。", "1.0", ["question"],
      [("type", "question-answer")]⟩, by decide, by decide⟩, rfl, by decide⟩

/-- C5, amended: for a registered template whose content is literal text and
placeholders with identifier names, and bindings that have no entry for the name `x`
of one of the placeholders and bind the placeholders to strings, integers or nil
values only, `Render` returns a nil error and the content in which every placeholder is
replaced by the printed value of its binding, the placeholders of `x` by the text
`<no value>`. -/
theorem Render_unbound_prints_no_value (e : PromptEngine) (name : String) (tmpl : Template)
    (segs : List Segment) (data : List (String × Value)) (x : String)
    (hreg : mapGet e.templates name = some tmpl)
    (hcontent : tmpl.Content = composeContent segs) (hfits : Fits segs)
    (_hx : x ∈ holes segs) (hmiss : mapGet data x = none)
    (hkinds : ∀ y ∈ holes segs, ∀ shown, mapGet data y ≠ some (.other shown)) :
    e.Render name data = some (fillWith (printedText data) segs, none) ∧
      printedText data x = "<no value>" ∧
      (∀ y ∈ holes segs, printValue (mapGet data y) = some (printedText data y)) := by
  have hσ : ∀ y ∈ holes segs, printValue (mapGet data y) = some (printedText data y) := by
    intro y hy
    have hne := printValue_modelled (mapGet data y) (hkinds y hy)
    unfold printedText
    cases hp : printValue (mapGet data y) with
    | none => exact absurd hp hne
    | some t => rfl
  refine ⟨render_segments e name tmpl segs data _ hreg hcontent hfits hσ, ?_, hσ⟩
  unfold printedText
  rw [hmiss]
  rfl

theorem Render_unbound_prints_no_value_witness :
    translationEngine.Render "translation" [("text", .int 7)]
        = some (fillWith (printedText [("text", Value.int 7)])
            [.lit "请将以下文本翻译成", .hole "target_language", .lit "：\n\n", .hole "text",
              .lit "\n\n请保持原文的意思和风格。"], none) ∧
      printedText [("text", Value.int 7)] "target_language" = "<no value>" ∧
      fillWith (printedText [("text", Value.int 7)])
          [.lit "请将以下文本翻译成", .hole "target_language", .lit "：\n\n", .hole "text",
            .lit "\n\n请保持原文的意思和风格。"]
        = "请将以下文本翻译成<no value>：\n\n7\n\n请保持原文的意思和风格。" :=
  ⟨(Render_unbound_prints_no_value translationEngine "translation"
      ⟨"translation",
        "请将以下文本翻译成\x7b\x7b.target_language\x7d\x7d：\n\n\x7b\x7b.text\x7d\x7d\n\n请保持原文的意思和风格。",
        "1.0", ["target_language", "text"], [("type", "translation")]⟩
      [.lit "请将以下文本翻译成", .hole "target_language", .lit "：\n\n", .hole "text",
        .lit "\n\n请保持原文的意思和风格。"]
      [("text", .int 7)] "target_language" (by decide) (by decide)
      (by unfold Fits Fits Fits Fits Fits Fits IsIdent IsWord; decide) (by decide) (by decide)
      (by
        intro y hy shown
        simp only [holes, List.mem_cons, List.mem_singleton, List.not_mem_nil, or_false] at hy
        rcases hy with rfl | rfl <;> simp [mapGet])).1,
    by decide, by decide⟩

/-- C6, as stated, fails: the content is the literal text `a\x7b` followed by the
placeholder of `x`, the bindings give `x` the string `v`, and `Render` returns a parse
error instead of the content with the placeholder replaced. -/
theorem Render_literal_brace_counterexample :
    (∃ tmpl, mapGet braceEngine.templates "t" = some tmpl ∧
      tmpl.Content = composeContent [.lit "a\x7b", .hole "x"]) ∧
    mapGet [("x", Value.str "v")] "x" = some (.str "v") ∧
    (∃ err, braceEngine.Render "t" [("x", .str "v")] = some ("", some err)) ∧
    braceEngine.Render "t" [("x", .str "v")]
      ≠ some (fillWith (fun _ => "v") [.lit "a\x7b", .hole "x"], none) :=
  ⟨⟨⟨"t", "a\x7b\x7b\x7b.x\x7d\x7d", "1.0", ["x"], []⟩, by decide, by decide⟩, by decide,
    ⟨ErrorfW "failed to parse template: "
      (.new "template: t:1: unexpected \"\x7b\" in command"), by decide⟩, by decide⟩

/-- C6, amended: for a registered template whose content is literal text interleaved
with placeholders, the names being identifiers and no literal segment, read together
with the character that follows it, containing the left delimiter, and bindings that
give each placeholder a string, `Render` returns a nil error and the content with
every placeholder replaced by its bound string and the literal text unchanged;
rendering the predefined template `qa` with the question `What is X?` gives the
instruction text around that question. -/
theorem Render_substitutes_bound_strings (e : PromptEngine) (name : String) (tmpl : Template)
    (segs : List Segment) (data : List (String × Value)) (σ : String → String)
    (hreg : mapGet e.templates name = some tmpl)
    (hcontent : tmpl.Content = composeContent segs) (hfits : Fits segs)
    (hbound : ∀ x ∈ holes segs, mapGet data x = some (.str (σ x))) :
    e.Render name data = some (fillWith σ segs, none) ∧
      qaEngine.Render "qa" [("question", .str "What is X?")]
        = some ("请回答以下问题：\n\nWhat is X?\n\n请提供详细、准确的答案。", none) := by
  refine ⟨?_, by decide⟩
  exact render_segments e name tmpl segs data σ hreg hcontent hfits
    (fun y hy => by rw [hbound y hy]; rfl)

theorem Render_substitutes_bound_strings_witness :
    qaEngine.Render "qa" [("question", .str "What is X?")]
      = some (fillWith (fun _ => "What is X?")
          [.lit "请回答以下问题：\n\n", .hole "question", .lit "\n\n请提供详细、准确的答案。"], none) :=
  (Render_substitutes_bound_strings qaEngine "qa"
    ⟨"qa", "请回答以下问题：\n\n\x7b\x7b.question\x7d\x7d\n\n请提供详细、准确的答案。", "1.0", ["question"],
      [("type", "question-answer")]⟩
    [.lit "请回答以下问题：\n\n", .hole "question", .lit "\n\n请提供详细、准确的答案。"]
    [("question", .str "What is X?")] (fun _ => "What is X?") (by decide) (by decide)
    (by unfold Fits Fits Fits Fits IsIdent IsWord; decide) (by decide)).1

/-! ## Theorems: the template map -/

theorem mapGet_eq_none_iff {V : Type} (m : List (String × V)) (k : String) :
    mapGet m k = none ↔ k ∉ mapKeys m := by
  induction m with
  | nil => simp [mapGet, mapKeys]
  | cons p m ih =>
    obtain ⟨a, b⟩ := p
    by_cases hak : a = k
    · subst hak; simp [mapGet, mapKeys]
    · have hka : ¬ k = a := fun h => hak h.symm
      simp only [mapKeys] at ih
      simp [mapGet, mapKeys, hak, hka, ih]

theorem mapGet_mapDelete_ne {V : Type} (m : List (String × V)) (k k2 : String)
    (h : k2 ≠ k) : mapGet (mapDelete m k) k2 = mapGet m k2 := by
  induction m with
  | nil => rfl
  | cons p m ih =>
    obtain ⟨a, b⟩ := p
    by_cases hak : a = k
    · subst hak
      have : ¬ a = k2 := fun hh => h hh.symm
      simp [mapDelete, mapGet, this]
    · simp only [mapDelete, hak, if_false, mapGet, ih]

theorem mapGet_mapDelete_self {V : Type} (m : List (String × V)) (k : String)
    (hnd : (mapKeys m).Nodup) : mapGet (mapDelete m k) k = none := by
  induction m with
  | nil => rfl
  | cons p m ih =>
    obtain ⟨a, b⟩ := p
    simp only [mapKeys, List.map_cons, List.nodup_cons] at hnd
    by_cases hak : a = k
    · subst hak
      simp only [mapDelete, if_true]
      exact (mapGet_eq_none_iff m a).2 hnd.1
    · simp only [mapDelete, hak, if_false, mapGet]
      exact ih hnd.2

theorem mapSet_mapSet {V : Type} (m : List (String × V)) (k : String) (v w : V) :
    mapSet (mapSet m k v) k w = mapSet m k w := by
  induction m with
  | nil => simp [mapSet]
  | cons p m ih =>
    obtain ⟨a, b⟩ := p
    by_cases hak : a = k
    · simp [mapSet, hak]
    · simp [mapSet, hak, ih]

theorem mapKeys_mapSet_nodup {V : Type} (m : List (String × V)) (k : String) (v : V)
    (hnd : (mapKeys m).Nodup) : (mapKeys (mapSet m k v)).Nodup := by
  rw [mapKeys_mapSet]
  split_ifs with hmem
  · exact hnd
  · rw [List.nodup_append]
    refine ⟨hnd, List.nodup_singleton _, ?_⟩
    intro a ha hb
    rw [List.mem_singleton] at hb
    exact hmem (hb ▸ ha)

theorem mapKeys_mapDelete_nodup {V : Type} (m : List (String × V)) (k : String)
    (hnd : (mapKeys m).Nodup) : (mapKeys (mapDelete m k)).Nodup :=
  hnd.sublist ((mapDelete_sublist m k).map Prod.fst)

theorem reachable_invariant (e : PromptEngine) (h : e.Reachable) :
    (mapKeys e.templates).Nodup ∧
      ∀ p ∈ e.templates, p.2.Name = p.1 ∧ p.2.Variables = extractVariables p.2.Content := by
  induction h with
  | new => simp [NewPromptEngine, mapKeys]
  | add e tmpl _ ih =>
    cases tmpl with
    | none => exact ih
    | some t =>
      by_cases hn : t.Name = ""
      · simpa [PromptEngine.AddTemplate, hn] using ih
      · by_cases hc : t.Content = ""
        · simpa [PromptEngine.AddTemplate, hn, hc] using ih
        · simp only [PromptEngine.AddTemplate, hn, hc, if_false]
          refine ⟨mapKeys_mapSet_nodup _ _ _ ih.1, ?_⟩
          intro p hp
          rcases mem_mapSet _ _ _ p hp with h1 | h1
          · rw [h1]; exact ⟨rfl, rfl⟩
          · exact ih.2 p h1
  | remove e name _ ih =>
    cases hget : mapGet e.templates name with
    | none => simpa [PromptEngine.RemoveTemplate, hget] using ih
    | some t =>
      simp only [PromptEngine.RemoveTemplate, hget]
      exact ⟨mapKeys_mapDelete_nodup _ _ ih.1,
        fun p hp => ih.2 p ((mapDelete_sublist e.templates name).subset hp)⟩

/-- C11: for a template `t` with non-empty name and content, `AddTemplate` succeeds and
`GetTemplate` then returns under the name of `t` the template with the name, content,
version and metadata of `t` and with the variables extracted from its content,
whatever variables `t` carried and whatever the engine held before; the entries under
every other name are unchanged. In every engine reached from `NewPromptEngine` by
`AddTemplate` and `RemoveTemplate` each stored template is keyed by its own name and
its variables are those extracted from its content. -/
theorem AddTemplate_then_GetTemplate (e : PromptEngine) (t : Template)
    (hn : t.Name ≠ "") (hc : t.Content ≠ "") :
    (e.AddTemplate (some t)).2 = none ∧
    (e.AddTemplate (some t)).1.GetTemplate t.Name
      = (some ⟨t.Name, t.Content, t.Version, extractVariables t.Content, t.Metadata⟩, none) ∧
    (∀ other, other ≠ t.Name →
      mapGet (e.AddTemplate (some t)).1.templates other = mapGet e.templates other) ∧
    (∀ e2 : PromptEngine, e2.Reachable → ∀ p ∈ e2.templates,
      p.2.Name = p.1 ∧ p.2.Variables = extractVariables p.2.Content) := by
  refine ⟨?_, ?_, ?_, fun e2 h2 => (reachable_invariant e2 h2).2⟩
  · simp [PromptEngine.AddTemplate, hn, hc]
  · simp [PromptEngine.AddTemplate, hn, hc, PromptEngine.GetTemplate, mapGet_mapSet]
  · intro other hother
    have : ¬ t.Name = other := fun h => hother h.symm
    simp [PromptEngine.AddTemplate, hn, hc, mapGet_mapSet, this]

theorem AddTemplate_then_GetTemplate_witness :
    (qaEngine.AddTemplate (some ⟨"qa", "Answer \x7b\x7b.q\x7d\x7d", "2.0", ["stale"], []⟩)).1.GetTemplate
        "qa"
      = (some ⟨"qa", "Answer \x7b\x7b.q\x7d\x7d", "2.0",
          extractVariables "Answer \x7b\x7b.q\x7d\x7d", []⟩, none) :=
  (AddTemplate_then_GetTemplate qaEngine
    ⟨"qa", "Answer \x7b\x7b.q\x7d\x7d", "2.0", ["stale"], []⟩ (by decide) (by decide)).2.1

/-- C12: `GetTemplate` fails exactly when no template is registered under the name;
for such a name `Render` returns the empty string and the not-found error of
`GetTemplate`, for every bindings map; and the engine after `GetTemplate` and after
`Render` is the engine before the call. -/
theorem GetTemplate_fails_iff_unregistered (e : PromptEngine) (name : String) :
    ((e.GetTemplate name).2 ≠ none ↔ mapGet e.templates name = none) ∧
    (mapGet e.templates name = none →
      e.GetTemplate name
          = (none, some (.new ("template \x27" ++ name ++ "\x27 not found"))) ∧
        ∀ data, e.Render name data = some ("", (e.GetTemplate name).2)) ∧
    ((e.GetTemplateSt name).1 = e ∧ (e.GetTemplateSt name).2 = e.GetTemplate name) ∧
    (∀ data, (e.RenderSt name data).map Prod.snd = e.Render name data) ∧
    (∀ data e1 out, e.RenderSt name data = some (e1, out) → e1 = e) := by
  cases hget : mapGet e.templates name with
  | none =>
    refine ⟨by simp [PromptEngine.GetTemplate, hget], ?_, ?_, ?_, ?_⟩
    · intro _
      simp [PromptEngine.GetTemplate, PromptEngine.Render, hget]
    · simp [PromptEngine.GetTemplateSt, PromptEngine.GetTemplate, hget]
    · intro data
      simp [PromptEngine.RenderSt, PromptEngine.GetTemplateSt, PromptEngine.Render,
        PromptEngine.GetTemplate, hget]
    · intro data e1 out h
      simp only [PromptEngine.RenderSt, PromptEngine.GetTemplateSt, hget, Option.some.injEq,
        Prod.mk.injEq] at h
      exact h.1.symm
  | some tmpl =>
    refine ⟨by simp [PromptEngine.GetTemplate, hget], by simp, ?_, ?_, ?_⟩
    · simp [PromptEngine.GetTemplateSt, PromptEngine.GetTemplate, hget]
    · intro data
      simp only [PromptEngine.RenderSt, PromptEngine.GetTemplateSt, PromptEngine.Render,
        PromptEngine.GetTemplate, hget]
      cases templateParse tmpl.Name tmpl.Content with
      | ok nodes =>
        simp only []
        cases executeNodes data nodes [] <;> rfl
      | failed err => rfl
      | unmodelled => rfl
    · intro data e1 out h
      simp only [PromptEngine.RenderSt, PromptEngine.GetTemplateSt, hget] at h
      cases hp : templateParse tmpl.Name tmpl.Content with
      | ok nodes =>
        rw [hp] at h
        simp only [] at h
        cases hx : executeNodes data nodes [] with
        | ok out2 =>
          rw [hx] at h
          simp only [Option.some.injEq, Prod.mk.injEq] at h
          exact h.1.symm
        | failed err =>
          rw [hx] at h
          simp only [Option.some.injEq, Prod.mk.injEq] at h
          exact h.1.symm
        | unmodelled =>
          rw [hx] at h
          simp at h
      | failed err =>
        rw [hp] at h
        simp only [Option.some.injEq, Prod.mk.injEq] at h
        exact h.1.symm
      | unmodelled =>
        rw [hp] at h
        simp at h

theorem GetTemplate_fails_iff_unregistered_witness :
    qaEngine.GetTemplate "nope"
        = (none, some (.new ("template \x27" ++ "nope" ++ "\x27 not found"))) ∧
      ∀ data, qaEngine.Render "nope" data = some ("", (qaEngine.GetTemplate "nope").2) :=
  (GetTemplate_fails_iff_unregistered qaEngine "nope").2.1 (by decide)

/-- C13: when no template is registered under the name, `RemoveTemplate` returns the
not-found error and the engine unchanged; otherwise it returns a nil error, a
following `GetTemplate` of the name fails, and the entries under all other names are
unchanged. The hypothesis states that the keys of the template map are distinct, as the
keys of a map are. -/
theorem RemoveTemplate_removes_only_name (e : PromptEngine) (name : String)
    (hnd : (mapKeys e.templates).Nodup) :
    (mapGet e.templates name = none →
      e.RemoveTemplate name
        = (e, some (.new ("template \x27" ++ name ++ "\x27 not found")))) ∧
    (mapGet e.templates name ≠ none →
      (e.RemoveTemplate name).2 = none ∧
      ((e.RemoveTemplate name).1.GetTemplate name).2 ≠ none ∧
      ((e.RemoveTemplate name).1.GetTemplate name).1 = none ∧
      ∀ other, other ≠ name →
        mapGet (e.RemoveTemplate name).1.templates other = mapGet e.templates other) := by
  cases hget : mapGet e.templates name with
  | none => simp [PromptEngine.RemoveTemplate, hget]
  | some tmpl =>
    refine ⟨by simp, fun _ => ?_⟩
    have hgone := mapGet_mapDelete_self e.templates name hnd
    refine ⟨by simp [PromptEngine.RemoveTemplate, hget], ?_, ?_, ?_⟩
    · simp [PromptEngine.RemoveTemplate, hget, PromptEngine.GetTemplate, hgone]
    · simp [PromptEngine.RemoveTemplate, hget, PromptEngine.GetTemplate, hgone]
    · intro other hother
      simp [PromptEngine.RemoveTemplate, hget, mapGet_mapDelete_ne _ _ _ hother]

theorem RemoveTemplate_removes_only_name_witness :
    (mapKeys twoTemplateEngine.templates).Nodup ∧
      (twoTemplateEngine.RemoveTemplate "qa").2 = none ∧
      ((twoTemplateEngine.RemoveTemplate "qa").1.GetTemplate "qa").2 ≠ none ∧
      ((twoTemplateEngine.RemoveTemplate "qa").1.GetTemplate "qa").1 = none ∧
      ∀ other, other ≠ "qa" →
        mapGet (twoTemplateEngine.RemoveTemplate "qa").1.templates other
          = mapGet twoTemplateEngine.templates other :=
  ⟨by decide,
    (RemoveTemplate_removes_only_name twoTemplateEngine "qa" (by decide)).2 (by decide)⟩

/-! ## Theorems: the document store -/

theorem mapGet_mem_keys {V : Type} (m : List (String × V)) (k : String) (v : V)
    (h : mapGet m k = some v) : k ∈ mapKeys m := by
  by_contra hk
  rw [(mapGet_eq_none_iff m k).2 hk] at h
  exact absurd h (by simp)

/-- C14: for documents `d1`, `d2` with the same non-empty id, `AddDocument(d1)` followed
by `AddDocument(d2)` gives the same store as `AddDocument(d2)` alone: the id is stored
once, under it stands `d2`, the number of stored ids has grown by at most one, and the
documents under other ids are unchanged. The hypothesis states that the keys of the
store are distinct, as the keys of a map are. -/
theorem AddDocument_last_write_wins (r : SimpleRetriever) (d1 d2 : Document)
    (hid : d1.ID = d2.ID) (hne : d2.ID ≠ "") (hnd : (mapKeys r.documents).Nodup) :
    ((r.AddDocument (some d1)).1.AddDocument (some d2)).1 = (r.AddDocument (some d2)).1 ∧
    (mapKeys ((r.AddDocument (some d1)).1.AddDocument (some d2)).1.documents).count d2.ID = 1 ∧
    mapGet ((r.AddDocument (some d1)).1.AddDocument (some d2)).1.documents d2.ID = some d2 ∧
    (mapKeys ((r.AddDocument (some d1)).1.AddDocument (some d2)).1.documents).length
      ≤ (mapKeys r.documents).length + 1 ∧
    (∀ other, other ≠ d2.ID →
      mapGet ((r.AddDocument (some d1)).1.AddDocument (some d2)).1.documents other
        = mapGet r.documents other) := by
  have hne1 : d1.ID ≠ "" := by rw [hid]; exact hne
  have heq : ((r.AddDocument (some d1)).1.AddDocument (some d2)).1
      = (r.AddDocument (some d2)).1 := by
    simp only [SimpleRetriever.AddDocument, hne, hne1, if_false, hid, mapSet_mapSet]
  have hdocs : (r.AddDocument (some d2)).1.documents = mapSet r.documents d2.ID d2 := by
    simp only [SimpleRetriever.AddDocument, hne, if_false]
  have hget : mapGet (mapSet r.documents d2.ID d2) d2.ID = some d2 := by
    simp [mapGet_mapSet]
  refine ⟨heq, ?_, ?_, ?_, ?_⟩
  · rw [heq, hdocs]
    exact List.count_eq_one_of_mem (mapKeys_mapSet_nodup _ _ _ hnd)
      (mapGet_mem_keys _ _ _ hget)
  · rw [heq, hdocs]
    exact hget
  · rw [heq, hdocs, mapKeys_mapSet]
    split_ifs
    · exact Nat.le_succ _
    · simp
  · intro other hother
    have : ¬ d2.ID = other := fun h => hother h.symm
    rw [heq, hdocs, mapGet_mapSet]
    simp [this]

theorem AddDocument_last_write_wins_witness :
    (mapKeys storeTwo.documents).Nodup ∧
      ((storeTwo.AddDocument (some ⟨"doc1", "first", [], 0⟩)).1.AddDocument
          (some ⟨"doc1", "second", [], 0⟩)).1
        = (storeTwo.AddDocument (some ⟨"doc1", "second", [], 0⟩)).1 :=
  ⟨storeTwo_wellFormed.1,
    (AddDocument_last_write_wins storeTwo ⟨"doc1", "first", [], 0⟩ ⟨"doc1", "second", [], 0⟩
      rfl (by decide) storeTwo_wellFormed.1).1⟩

/-- C15: `AddDocument` returns an error exactly when the document reference is nil or
its id is empty, the store is unchanged whenever it returns an error, and a document
with a non-empty id and an empty content is accepted. -/
theorem AddDocument_error_iff (r : SimpleRetriever) (doc : Option Document) :
    ((r.AddDocument doc).2 ≠ none ↔ (doc = none ∨ ∃ d, doc = some d ∧ d.ID = "")) ∧
    ((r.AddDocument doc).2 ≠ none → (r.AddDocument doc).1 = r) ∧
    (∀ d : Document, d.ID ≠ "" → d.Content = "" →
      (r.AddDocument (some d)).2 = none ∧
        mapGet (r.AddDocument (some d)).1.documents d.ID = some d) := by
  refine ⟨?_, ?_, ?_⟩
  · cases doc with
    | none => simp [SimpleRetriever.AddDocument]
    | some d =>
      by_cases hid : d.ID = "" <;> simp [SimpleRetriever.AddDocument, hid]
  · cases doc with
    | none => simp [SimpleRetriever.AddDocument]
    | some d =>
      by_cases hid : d.ID = "" <;> simp [SimpleRetriever.AddDocument, hid]
  · intro d hid _
    simp [SimpleRetriever.AddDocument, hid, mapGet_mapSet]

theorem AddDocument_error_iff_witness :
    (storeGo.AddDocument (some ⟨"", "text", [], 0⟩)).1 = storeGo ∧
      (storeGo.AddDocument (some ⟨"d2", "", [], 0⟩)).2 = none ∧
      mapGet (storeGo.AddDocument (some ⟨"d2", "", [], 0⟩)).1.documents "d2"
        = some ⟨"d2", "", [], 0⟩ :=
  ⟨(AddDocument_error_iff storeGo (some ⟨"", "text", [], 0⟩)).2.1 (by decide),
    (AddDocument_error_iff storeGo none).2.2 ⟨"d2", "", [], 0⟩ (by decide) rfl⟩

/-- C16: when no document is stored under the id, `RemoveDocument` returns the
not-found error and the store unchanged; otherwise it returns a nil error, the store
has no document under the id any more, and the documents under all other ids are
unchanged. The hypothesis states that the keys of the store are distinct, as the keys
of a map are. -/
theorem RemoveDocument_removes_only_id (r : SimpleRetriever) (id : String)
    (hnd : (mapKeys r.documents).Nodup) :
    (mapGet r.documents id = none →
      r.RemoveDocument id = (r, some (.new ("document \x27" ++ id ++ "\x27 not found")))) ∧
    (mapGet r.documents id ≠ none →
      (r.RemoveDocument id).2 = none ∧
      mapGet (r.RemoveDocument id).1.documents id = none ∧
      id ∉ mapKeys (r.RemoveDocument id).1.documents ∧
      ∀ other, other ≠ id →
        mapGet (r.RemoveDocument id).1.documents other = mapGet r.documents other) := by
  cases hget : mapGet r.documents id with
  | none => simp [SimpleRetriever.RemoveDocument, hget]
  | some d =>
    refine ⟨by simp, fun _ => ?_⟩
    have hgone := mapGet_mapDelete_self r.documents id hnd
    refine ⟨by simp [SimpleRetriever.RemoveDocument, hget], ?_, ?_, ?_⟩
    · simp [SimpleRetriever.RemoveDocument, hget, hgone]
    · simp only [SimpleRetriever.RemoveDocument, hget]
      exact (mapGet_eq_none_iff _ _).1 hgone
    · intro other hother
      simp [SimpleRetriever.RemoveDocument, hget, mapGet_mapDelete_ne _ _ _ hother]

theorem RemoveDocument_removes_only_id_witness :
    (mapKeys storeTwo.documents).Nodup ∧
      storeTwo.RemoveDocument "doc9"
        = (storeTwo, some (.new ("document \x27" ++ "doc9" ++ "\x27 not found"))) ∧
      (storeTwo.RemoveDocument "doc1").2 = none ∧
      mapGet (storeTwo.RemoveDocument "doc1").1.documents "doc1" = none :=
  ⟨storeTwo_wellFormed.1,
    (RemoveDocument_removes_only_id storeTwo "doc9" storeTwo_wellFormed.1).1 (by decide),
    ((RemoveDocument_removes_only_id storeTwo "doc1" storeTwo_wellFormed.1).2 (by decide)).1,
    ((RemoveDocument_removes_only_id storeTwo "doc1" storeTwo_wellFormed.1).2 (by decide)).2.1⟩

theorem scoresLoop_no_match (lower : String → String) (words : List String)
    (docs : List (String × Document))
    (h : ∀ p ∈ docs, ∀ w ∈ words, Contains (lower p.2.Content) w = false) :
    ∀ acc, SimpleRetriever.scoresLoop lower words docs acc = acc := by
  induction docs with
  | nil => intro acc; rfl
  | cons p docs ih =>
    intro acc
    obtain ⟨id, doc⟩ := p
    have hzero : SimpleRetriever.scoreLoop (lower doc.Content) words 0 = 0 := by
      rw [scoreLoop_eq]
      have hc : words.countP (fun w => Contains (lower doc.Content) w) = 0 := by
        rw [List.countP_eq_zero]
        intro w hw
        simp [h (id, doc) (List.mem_cons_self _ _) w hw]
      simp [hc]
    simp only [SimpleRetriever.scoresLoop, hzero, gt_iff_lt, lt_self_iff_false, if_false]
    exact ih (fun q hq => h q (List.mem_cons_of_mem _ hq)) acc

theorem retrieve_no_match (lower : String → String) (ord : RangeOrder) (r : SimpleRetriever)
    (query : String) (limit : Int)
    (h : ∀ p ∈ r.documents, ∀ w ∈ Fields (lower query), Contains (lower p.2.Content) w = false) :
    r.Retrieve lower ord query limit = ([], none) := by
  have hperm : (ord.order r.documents).Perm r.documents := ord.perm _
  have hscores := scoresLoop_no_match lower (Fields (lower query)) (ord.order r.documents)
    (fun p hp => h p (hperm.mem_iff.1 hp)) []
  have hnil : ord.order ([] : List (String × ℚ)) = [] := List.perm_nil.1 (ord.perm _)
  simp only [SimpleRetriever.Retrieve, hscores, hnil, SimpleRetriever.resultsLoop]

/-- C17: `Retrieve` returns a nil error for every store, query and limit; and when no
stored document contains, in its lower-cased content, a token of the lower-cased query,
it returns the empty sequence: so for a query without tokens, and for the query `zzz`
against a store in which no document contains `zzz`. -/
theorem Retrieve_never_fails (lower : String → String) (ord : RangeOrder)
    (r : SimpleRetriever) (query : String) (limit : Int) :
    (r.Retrieve lower ord query limit).2 = none ∧
    ((∀ p ∈ r.documents, ∀ w ∈ Fields (lower query),
        Contains (lower p.2.Content) w = false) →
      r.Retrieve lower ord query limit = ([], none)) ∧
    (Fields (lower query) = [] → r.Retrieve lower ord query limit = ([], none)) ∧
    (Fields (lower "zzz") = ["zzz"] →
      (∀ p ∈ r.documents, Contains (lower p.2.Content) "zzz" = false) →
      r.Retrieve lower ord "zzz" limit = ([], none)) := by
  refine ⟨rfl, retrieve_no_match lower ord r query limit, ?_, ?_⟩
  · intro hf
    apply retrieve_no_match
    intro p _ w hw
    rw [hf] at hw
    simp at hw
  · intro hf hz
    apply retrieve_no_match
    intro p hp w hw
    rw [hf, List.mem_singleton] at hw
    rw [hw]
    exact hz p hp

theorem Retrieve_never_fails_witness :
    storeTwo.Retrieve asciiToLower RangeOrder.reversed "zzz" 5 = ([], none) ∧
      storeTwo.Retrieve asciiToLower RangeOrder.reversed "  \t " 5 = ([], none) :=
  ⟨(Retrieve_never_fails asciiToLower RangeOrder.reversed storeTwo "zzz" 5).2.2.2
      (by decide) (by decide),
    (Retrieve_never_fails asciiToLower RangeOrder.reversed storeTwo "  \t " 5).2.2.1
      (by decide)⟩

theorem storeGo_retrieve_twice :
    (storeGo.Retrieve asciiToLower RangeOrder.asStored "go go" 5).1
      = [⟨"d1", "go", [], 2⟩] := by
  have hf : Fields (asciiToLower "go go") = ["go", "go"] := by decide
  have hl : asciiToLower "go" = "go" := by decide
  have hc : Contains "go" "go" = true := by decide
  simp only [SimpleRetriever.Retrieve, RangeOrder.asStored, storeGo]
  simp only [hf, SimpleRetriever.scoresLoop, hl]
  simp only [SimpleRetriever.scoreLoop, hc]
  norm_num [mapSet, SimpleRetriever.resultsLoop, mapGet]

theorem resultsLoopSt_eq (limit : Int) (it : List (String × ℚ)) :
    ∀ st : RetrieveState,
      (SimpleRetriever.resultsLoopSt limit it st).documents = st.documents ∧
      (SimpleRetriever.resultsLoopSt limit it st).results
        = SimpleRetriever.resultsLoop ⟨st.documents⟩ limit it st.results := by
  induction it with
  | nil => intro st; exact ⟨rfl, rfl⟩
  | cons e it ih =>
    intro st
    obtain ⟨id, score⟩ := e
    rw [SimpleRetriever.resultsLoopSt, SimpleRetriever.resultsLoop]
    cases hget : mapGet st.documents id with
    | none =>
      simp only []
      exact ih st
    | some stored =>
      simp only []
      split_ifs with hge
      · exact ⟨rfl, rfl⟩
      · exact ih _

/-- C18: `Retrieve` leaves the document store unchanged: the store after the call is
the store before it, with the same ids and the same document, score field included,
under every id; the results are those of `Retrieve`, whose documents are copies that
carry the computed score: for the query `go go` the copy of the document `d1` is
returned with score 2 while the stored document keeps its score 0. -/
theorem Retrieve_leaves_store (lower : String → String) (ord : RangeOrder)
    (r : SimpleRetriever) (query : String) (limit : Int) :
    (r.RetrieveSt lower ord query limit).1 = r ∧
    mapKeys (r.RetrieveSt lower ord query limit).1.documents = mapKeys r.documents ∧
    (∀ id, mapGet (r.RetrieveSt lower ord query limit).1.documents id
      = mapGet r.documents id) ∧
    (r.RetrieveSt lower ord query limit).2 = r.Retrieve lower ord query limit ∧
    (storeGo.RetrieveSt asciiToLower RangeOrder.asStored "go go" 5).2.1
      = [⟨"d1", "go", [], 2⟩] ∧
    mapGet (storeGo.RetrieveSt asciiToLower RangeOrder.asStored "go go" 5).1.documents "d1"
      = some ⟨"d1", "go", [], 0⟩ := by
  have hgen : ∀ (lower : String → String) (ord : RangeOrder) (r : SimpleRetriever)
      (query : String) (limit : Int),
      (r.RetrieveSt lower ord query limit).1 = r ∧
        (r.RetrieveSt lower ord query limit).2 = r.Retrieve lower ord query limit := by
    intro lower ord r query limit
    have h := resultsLoopSt_eq (if limit ≤ 0 then 5 else limit)
      (ord.order (SimpleRetriever.scoresLoop lower (Fields (lower query))
        (ord.order r.documents) [])) ⟨r.documents, []⟩
    constructor
    · simp only [SimpleRetriever.RetrieveSt, h.1]
    · simp only [SimpleRetriever.RetrieveSt, SimpleRetriever.Retrieve, h.2]
  have h1 := (hgen lower ord r query limit).1
  have hgo := hgen asciiToLower RangeOrder.asStored storeGo "go go" 5
  refine ⟨h1, by rw [h1], fun id => by rw [h1], (hgen lower ord r query limit).2, ?_, ?_⟩
  · rw [hgo.2]
    exact storeGo_retrieve_twice
  · rw [hgo.1]
    rfl

/-! ## Theorems: chain operations -/

theorem runLoop_append {Ctx : Type} (ctx : Ctx) (pre post : List (Step Ctx)) :
    ∀ (i : ℕ) (v : Value),
      Chain.runLoop ctx i (pre ++ post) v
        = match Chain.runLoop ctx i pre v with
          | (r, none) => Chain.runLoop ctx (i + pre.length) post r
          | (x, some e) => (x, some e) := by
  induction pre with
  | nil => intro i v; simp [Chain.runLoop]
  | cons p pre ih =>
    intro i v
    rw [List.cons_append, Chain.runLoop, Chain.runLoop]
    rcases hp : p ctx v with ⟨a, _ | err⟩
    · simp only []
      rw [ih (i + 1) a]
      simp [Nat.add_assoc, Nat.add_comm 1]
    · rfl

theorem foldl_AddStep_steps {Ctx : Type} (ss : List (Step Ctx)) :
    ∀ c : Chain Ctx, (ss.foldl Chain.AddStep c).steps = c.steps ++ ss := by
  induction ss with
  | nil => intro c; simp
  | cons s ss ih =>
    intro c
    rw [List.foldl_cons, ih]
    simp [Chain.AddStep]

/-- C19: after `AddStep(s)` the steps of the chain are the steps of `c` followed by `s`.
If `Run` on `c` yields `(r, nil)`, then `Run` on the extended chain yields what `s`
returns on `r` when `s` succeeds, and the failure tagged with the index `n`, the number
of steps of `c`, when `s` fails; if `Run` on `c` fails, `Run` on the extended chain
fails with the same error. A chain built by adding steps one by one holds them in the
order in which they were added. -/
theorem AddStep_extends_run {Ctx : Type} (c : Chain Ctx) (s : Step Ctx) (ctx : Ctx)
    (v : Value) :
    (c.AddStep s).steps = c.steps ++ [s] ∧
    (∀ r, c.Run ctx v = (r, none) →
      (∀ x, s ctx r = (x, none) → (c.AddStep s).Run ctx v = (x, none)) ∧
      (∀ x e, s ctx r = (x, some e) →
        (c.AddStep s).Run ctx v
          = (Value.nil, some (ErrorfW ("step " ++ toString c.steps.length ++ " failed: ") e)))) ∧
    (∀ x e, c.Run ctx v = (x, some e) → (c.AddStep s).Run ctx v = (x, some e)) ∧
    (∀ ss : List (Step Ctx), (ss.foldl Chain.AddStep NewChain).steps = ss) := by
  have happ := runLoop_append ctx c.steps [s] 0 v
  refine ⟨rfl, ?_, ?_, ?_⟩
  · intro r hr
    have hr2 : Chain.runLoop ctx 0 c.steps v = (r, none) := hr
    rw [hr2] at happ
    simp only [Nat.zero_add] at happ
    constructor
    · intro x hx
      show Chain.runLoop ctx 0 (c.steps ++ [s]) v = (x, none)
      rw [happ, Chain.runLoop, hx]
      rfl
    · intro x e hx
      show Chain.runLoop ctx 0 (c.steps ++ [s]) v = _
      rw [happ, Chain.runLoop, hx]
  · intro x e hr
    have hr2 : Chain.runLoop ctx 0 c.steps v = (x, some e) := hr
    rw [hr2] at happ
    exact happ
  · intro ss
    rw [foldl_AddStep_steps]
    simp [NewChain]

theorem AddStep_extends_run_witness :
    ((Chain.mk [exampleStep1]).AddStep failingStep).Run () (.str "q")
      = (Value.nil, some (ErrorfW
          ("step " ++ toString (Chain.mk [exampleStep1]).steps.length ++ " failed: ")
          (.new "boom"))) :=
  ((AddStep_extends_run (Chain.mk [exampleStep1]) failingStep () (.str "q")).2.1
    (.str ("预处理: " ++ "q")) rfl).2 (.str ("预处理: " ++ "q")) (.new "boom") rfl

theorem addsSinceClear_snoc {Ctx : Type} (ops : List (ChainOp Ctx)) (op : ChainOp Ctx) :
    addsSinceClear (ops ++ [op])
      = if op.isClear then 0
        else (if op.isAddStep then 1 else 0) + addsSinceClear ops := by
  unfold addsSinceClear
  rw [List.reverse_append, List.reverse_singleton, List.singleton_append]
  cases op <;> simp [List.takeWhile, ChainOp.isClear, ChainOp.isAddStep, List.countP_cons,
    Nat.add_comm]

theorem applyAll_length {Ctx : Type} (ops : List (ChainOp Ctx)) :
    ((NewChain : Chain Ctx).applyAll ops).steps.length = addsSinceClear ops := by
  induction ops using List.reverseRecOn with
  | nil => rfl
  | append_singleton ops op ih =>
    rw [addsSinceClear_snoc, Chain.applyAll, List.foldl_append, List.foldl_cons,
      List.foldl_nil]
    change ((Chain.applyAll NewChain ops).apply op).steps.length = _
    cases op with
    | addStep step =>
      simp only [Chain.apply, Chain.AddStep, List.length_append, List.length_singleton, ih,
        ChainOp.isClear, ChainOp.isAddStep]
      simp [Nat.add_comm]
    | clear => simp [Chain.apply, Chain.Clear, ChainOp.isClear]
    | run ctx input => simp [Chain.apply, ih, ChainOp.isClear, ChainOp.isAddStep]
    | runString ctx input => simp [Chain.apply, ih, ChainOp.isClear, ChainOp.isAddStep]
    | getStepCount => simp [Chain.apply, ih, ChainOp.isClear, ChainOp.isAddStep]

/-- C20: after every sequence of `AddStep`, `Clear`, `Run`, `RunString` and
`GetStepCount` operations on a chain made by `NewChain`, `GetStepCount` returns the
number of `AddStep` operations since the last `Clear`: a new chain has count 0,
`AddStep` raises the count by 1, `Clear` sets it to 0, `Run`, `RunString` and
`GetStepCount` leave the step list unchanged, and no operation other than `Clear`
lowers the count. -/
theorem GetStepCount_counts_adds {Ctx : Type} (ops : List (ChainOp Ctx)) :
    ((NewChain : Chain Ctx).applyAll ops).GetStepCount = (addsSinceClear ops : Int) ∧
    (NewChain : Chain Ctx).GetStepCount = 0 ∧
    (∀ (c : Chain Ctx) (s : Step Ctx),
      (c.apply (.addStep s)).GetStepCount = c.GetStepCount + 1) ∧
    (∀ c : Chain Ctx, (c.apply .clear).GetStepCount = 0) ∧
    (∀ (c : Chain Ctx) (ctx : Ctx) (v : Value) (input : String),
      (c.apply (.run ctx v)).steps = c.steps ∧
      (c.apply (.runString ctx input)).steps = c.steps ∧
      (c.apply .getStepCount).steps = c.steps) ∧
    (∀ (c : Chain Ctx) (op : ChainOp Ctx), op.isClear = false →
      c.GetStepCount ≤ (c.apply op).GetStepCount) := by
  refine ⟨?_, rfl, ?_, ?_, ?_, ?_⟩
  · simp only [Chain.GetStepCount, applyAll_length]
  · intro c s
    simp [Chain.GetStepCount, Chain.apply, Chain.AddStep]
  · intro c
    simp [Chain.GetStepCount, Chain.apply, Chain.Clear]
  · intro c ctx v input
    exact ⟨rfl, rfl, rfl⟩
  · intro c op hop
    cases op with
    | addStep step => simp [Chain.GetStepCount, Chain.apply, Chain.AddStep]
    | clear => simp [ChainOp.isClear] at hop
    | run ctx input => simp [Chain.apply]
    | runString ctx input => simp [Chain.apply]
    | getStepCount => simp [Chain.apply]

theorem GetStepCount_counts_adds_witness :
    ((NewChain : Chain Unit).applyAll
        [.addStep exampleStep1, .run () (.str "q"), .clear, .addStep exampleStep2,
          .runString () "q", .addStep failingStep, .getStepCount]).GetStepCount = 2 ∧
      (Chain.mk [exampleStep1]).GetStepCount
        ≤ ((Chain.mk [exampleStep1]).apply (.run () (.str "q"))).GetStepCount :=
  ⟨(GetStepCount_counts_adds
      [.addStep exampleStep1, .run () (.str "q"), .clear, .addStep exampleStep2,
        .runString () "q", .addStep failingStep, .getStepCount]).1,
    (GetStepCount_counts_adds ([] : List (ChainOp Unit))).2.2.2.2.2
      (Chain.mk [exampleStep1]) (.run () (.str "q")) rfl⟩

/-! ## Theorems: RunString, the failure of Query, the predefined templates -/

/-- C21: if `Run` on the input string fails with the error `e`, `RunString` returns the
empty string and `e`; if `Run` succeeds with a string, `RunString` returns that string
and a nil error; if `Run` succeeds with a value that is not a string, `RunString`
returns the default formatting of the value and a nil error. So `RunString` fails
exactly when `Run` fails. -/
theorem RunString_follows_Run {Ctx : Type} (c : Chain Ctx) (ctx : Ctx) (s : String) :
    (∀ x e, c.Run ctx (.str s) = (x, some e) → c.RunString ctx s = ("", some e)) ∧
    (∀ t, c.Run ctx (.str s) = (.str t, none) → c.RunString ctx s = (t, none)) ∧
    (∀ v, c.Run ctx (.str s) = (v, none) → (∀ t, v ≠ .str t) →
      c.RunString ctx s = (v.format, none)) ∧
    ((c.RunString ctx s).2 ≠ none ↔ (c.Run ctx (.str s)).2 ≠ none) ∧
    (c.RunString ctx s).2 = (c.Run ctx (.str s)).2 := by
  have herr : (c.RunString ctx s).2 = (c.Run ctx (.str s)).2 := by
    unfold Chain.RunString
    rcases c.Run ctx (.str s) with ⟨v, _ | e⟩
    · cases v <;> rfl
    · cases v <;> rfl
  refine ⟨?_, ?_, ?_, by rw [herr], herr⟩
  · intro x e h
    simp only [Chain.RunString, h]
  · intro t h
    simp only [Chain.RunString, h]
  · intro v h hv
    unfold Chain.RunString
    rw [h]
    cases v with
    | str t => exact absurd rfl (hv t)
    | nil => rfl
    | int n => rfl
    | other shown => rfl

theorem RunString_follows_Run_witness :
    (Chain.mk [exampleStep1, numberStep]).RunString () "q" = ("42", none) ∧
      (Chain.mk [exampleStep1, failingStep]).RunString () "q"
        = ("", some (ErrorfW "step 1 failed: " (.new "boom"))) ∧
      (Chain.mk [exampleStep1]).RunString () "q" = ("预处理: q", none) :=
  ⟨(RunString_follows_Run (Chain.mk [exampleStep1, numberStep]) () "q").2.2.1 (.int 42) rfl
      (by intro t; simp),
    (RunString_follows_Run (Chain.mk [exampleStep1, failingStep]) () "q").1 Value.nil
      (ErrorfW "step 1 failed: " (.new "boom")) rfl,
    (RunString_follows_Run (Chain.mk [exampleStep1]) () "q").2.1 "预处理: q" rfl⟩

theorem expectedAnswer_ne_empty (fmt2 : ℚ → String) (query : String) (docs : List Document) :
    expectedAnswer fmt2 query docs ≠ "" := by
  intro h
  have hl := congrArg String.length h
  simp only [expectedAnswer, String.length_append] at hl
  have hp : 0 < instructionPreamble.length := by decide
  have h0 : ("" : String).length = 0 := rfl
  omega

/-- C22: when `Retrieve` returns the error `e` for the query and the limit, `Query`
returns the empty string and an error that unwraps to `e` and whose message is
`retrieval failed: ` followed by the message of `e`; the result is neither the fallback
text nor an augmented query. The query and the limit reach `Retrieve` unchanged: the
result of `Query` is fixed by what `Retrieve` returns for this query and limit, and a
retriever that reports its arguments in its error reports the ones given to `Query`. -/
theorem Query_wraps_retrieval_error {Ctx : Type} (fmt2 : ℚ → String) (e : RAGEngine Ctx)
    (ctx : Ctx) (query : String) (limit : Int) (docs : List Document) (err : GoError)
    (hret : e.retriever.Retrieve ctx query limit = (docs, some err)) :
    (∃ w, e.Query fmt2 ctx query limit = ("", some w) ∧ w.Unwrap = some err ∧
      w.Error = "retrieval failed: " ++ err.Error) ∧
    (e.Query fmt2 ctx query limit).1 ≠ noDocumentsAnswer ∧
    (∀ docs2, (e.Query fmt2 ctx query limit).1 ≠ expectedAnswer fmt2 query docs2) ∧
    (∀ e2 : RAGEngine Ctx,
      e2.retriever.Retrieve ctx query limit = e.retriever.Retrieve ctx query limit →
      e2.Query fmt2 ctx query limit = e.Query fmt2 ctx query limit) ∧
    (∀ (q : String) (l : Int), ((NewRAGEngine echoRetriever).Query fmt2 () q l).2
      = some (ErrorfW "retrieval failed: " (.new (q ++ "|" ++ toString l)))) := by
  have hq : e.Query fmt2 ctx query limit = ("", some (ErrorfW "retrieval failed: " err)) := by
    simp only [RAGEngine.Query, hret]
  refine ⟨⟨_, hq, rfl, rfl⟩, ?_, ?_, ?_, ?_⟩
  · rw [hq]
    show ("" : String) ≠ noDocumentsAnswer
    decide
  · intro docs2
    rw [hq]
    exact fun h => expectedAnswer_ne_empty fmt2 query docs2 h.symm
  · intro e2 h2
    simp only [RAGEngine.Query, h2]
  · intro q l
    rfl

theorem Query_wraps_retrieval_error_witness :
    ∃ w, (NewRAGEngine echoRetriever).Query formatF2 () "What is Go?" 3 = ("", some w) ∧
      w.Unwrap = some (.new ("What is Go?" ++ "|" ++ toString (3 : Int))) ∧
      w.Error = "retrieval failed: "
        ++ (GoError.new ("What is Go?" ++ "|" ++ toString (3 : Int))).Error :=
  (Query_wraps_retrieval_error formatF2 (NewRAGEngine echoRetriever) () "What is Go?" 3 []
    (.new ("What is Go?" ++ "|" ++ toString (3 : Int))) rfl).1

theorem foldl_AddTemplate_other (l : List (String × Template))
    (hname : ∀ p ∈ l, p.2.Name = p.1) :
    ∀ (e : PromptEngine) (k : String), k ∉ mapKeys l →
      mapGet (l.foldl (fun e p => (e.AddTemplate (some p.2)).1) e).templates k
        = mapGet e.templates k := by
  induction l with
  | nil => intro e k _; rfl
  | cons q l ih =>
    intro e k hk
    simp only [mapKeys, List.map_cons, List.mem_cons, not_or] at hk
    rw [List.foldl_cons, ih (fun p hp => hname p (List.mem_cons_of_mem _ hp)) _ k hk.2]
    have hq := hname q (List.mem_cons_self _ _)
    have hne : ¬ q.2.Name = k := by rw [hq]; exact fun h => hk.1 h.symm
    unfold PromptEngine.AddTemplate
    simp only []
    split_ifs
    · rfl
    · rfl
    · simp [mapGet_mapSet, hne]

theorem foldl_AddTemplate_get (l : List (String × Template))
    (hnd : (mapKeys l).Nodup)
    (hok : ∀ p ∈ l, p.2.Name = p.1 ∧ p.2.Name ≠ "" ∧ p.2.Content ≠ "") :
    ∀ (e : PromptEngine), ∀ p ∈ l,
      mapGet (l.foldl (fun e p => (e.AddTemplate (some p.2)).1) e).templates p.1
        = some ⟨p.2.Name, p.2.Content, p.2.Version, extractVariables p.2.Content,
            p.2.Metadata⟩ := by
  induction l with
  | nil => intro e p hp; simp at hp
  | cons q l ih =>
    intro e p hp
    simp only [mapKeys, List.map_cons, List.nodup_cons] at hnd
    have hokl : ∀ p ∈ l, p.2.Name = p.1 ∧ p.2.Name ≠ "" ∧ p.2.Content ≠ "" :=
      fun p hp => hok p (List.mem_cons_of_mem _ hp)
    rw [List.foldl_cons]
    rcases List.mem_cons.1 hp with rfl | hmem
    · rw [foldl_AddTemplate_other l (fun p hp => (hokl p hp).1) _ p.1 hnd.1]
      obtain ⟨h1, h2, h3⟩ := hok p (List.mem_cons_self _ _)
      simp only [PromptEngine.AddTemplate, h2, h3, if_false, mapGet_mapSet]
      simp [h1]
    · exact ih hnd.2 hokl _ p hmem

theorem defaultTemplates_ok :
    (mapKeys DefaultTemplates).Nodup ∧
      ∀ p ∈ DefaultTemplates, p.2.Name = p.1 ∧ p.2.Name ≠ "" ∧ p.2.Content ≠ "" := by
  constructor
  · decide
  · decide

theorem registerDefaults_get (ord : RangeOrder) :
    ∀ p ∈ DefaultTemplates,
      mapGet (registerDefaults ord NewPromptEngine).templates p.1
        = some ⟨p.2.Name, p.2.Content, p.2.Version, extractVariables p.2.Content,
            p.2.Metadata⟩ := by
  intro p hp
  have hperm : (ord.order DefaultTemplates).Perm DefaultTemplates := ord.perm _
  have hnd : (mapKeys (ord.order DefaultTemplates)).Nodup :=
    ((hperm.map Prod.fst).nodup_iff).2 defaultTemplates_ok.1
  exact foldl_AddTemplate_get _ hnd
    (fun q hq => defaultTemplates_ok.2 q (hperm.mem_iff.1 hq)) NewPromptEngine p
    (hperm.mem_iff.2 hp)

/-- C23: the table `DefaultTemplates` has exactly four entries, keyed `qa`,
`translation`, `summary` and `code_review`, each with its key as name; `AddTemplate`
accepts each of them on a new engine, and the registered templates have the variables
`[question]`, `[target_language, text]`, `[text]` and `[language, code]`, both when one
template is registered alone and when the whole table is registered in any order. -/
theorem DefaultTemplates_variables :
    DefaultTemplates.length = 4 ∧
    (∀ k, k ∈ mapKeys DefaultTemplates ↔
      k = "qa" ∨ k = "translation" ∨ k = "summary" ∨ k = "code_review") ∧
    (mapKeys DefaultTemplates).Nodup ∧
    (∀ p ∈ DefaultTemplates, p.2.Name = p.1) ∧
    (∀ p ∈ DefaultTemplates, (NewPromptEngine.AddTemplate (some p.2)).2 = none) ∧
    (∀ kv ∈ describedVariables,
      ((NewPromptEngine.AddTemplate (mapGet DefaultTemplates kv.1)).1.GetTemplate kv.1).1.map
        Template.Variables = some kv.2) ∧
    (∀ (ord : RangeOrder), ∀ kv ∈ describedVariables,
      ((registerDefaults ord NewPromptEngine).GetTemplate kv.1).1.map Template.Variables
        = some kv.2) := by
  refine ⟨rfl, ?_, defaultTemplates_ok.1, fun p hp => (defaultTemplates_ok.2 p hp).1,
    by decide, by decide, ?_⟩
  · intro k
    simp [mapKeys, DefaultTemplates]
  · intro ord kv hkv
    have hall : ∀ kv ∈ describedVariables, ∃ p ∈ DefaultTemplates,
        p.1 = kv.1 ∧ extractVariables p.2.Content = kv.2 := by decide
    obtain ⟨p, hp, hk, hv⟩ := hall kv hkv
    have hget := registerDefaults_get ord p hp
    rw [hk] at hget
    simp only [PromptEngine.GetTemplate, hget, Option.map_some', hv]

end GoLLM
